import Mathlib

/-!
Verification of the BiliLiveBot protocol engine against its specification.

The definitions below are a shallow embedding of the Python sources:
  * `core/danmaku.py`   — frame header codec (`PacketHeader.from_bytes`),
    the buffer splitter (`DanmakuClient._handle_packet`), the decompression
    dispatch (`_handle_message`), the nested re-split (`_parse_messages`),
    the reconnection loop (`_reconnect_loop`) and the username cleaner
    (`_clean_username` / `_trigger_user_enter`).
  * `core/interact_word_v2_parser.py` — the lite binary record decoder
    (`InteractWordV2Parser._parse_simple` / `_parse_user_info`).
  * `core/plugin_system.py` — event dispatch (`PluginManager.process_event`).
  * `core/wbi_sign.py` — the WBI request signer.

Bytes are modelled as `Nat` values (< 256 where it matters); buffers as
`List Nat`.  Imperative loops over an `offset` into a fixed buffer are
rendered as recursion over the unconsumed suffix (`buffer.drop offset`):
every quantity the loop body inspects (`buffer_len - offset`,
`buffer[test_offset:]`, slices from `offset`) is a function of that suffix,
and the final `del buffer[:offset]` corresponds to returning the suffix.
External C libraries (zlib, brotli, hashlib.md5) are modelled as oracle
parameters, since their code is not part of this repository.
-/

namespace BiliLive

/-! ## Frame header codec (`PacketHeader`, core/danmaku.py lines 43-82) -/

/-- Big-endian 32-bit read: `struct.unpack('>I', ...)` of four bytes. -/
def u32 (b0 b1 b2 b3 : Nat) : Nat := ((b0 * 256 + b1) * 256 + b2) * 256 + b3

/-- Big-endian 16-bit read of two bytes. -/
def u16 (b0 b1 : Nat) : Nat := b0 * 256 + b1

/-- Big-endian 32-bit write: `struct.pack('>I', n)`. -/
def be32 (n : Nat) : List Nat :=
  [n / 16777216 % 256, n / 65536 % 256, n / 256 % 256, n % 256]

/-- Big-endian 16-bit write. -/
def be16 (n : Nat) : List Nat := [n / 256 % 256, n % 256]

/-- The five fields of the 16-byte frame header, `struct.Struct('>I2H2I')`. -/
structure PacketHeader where
  packetLength : Nat
  headerLength : Nat
  protocolVersion : Nat
  operation : Nat
  sequenceId : Nat
deriving DecidableEq, Repr

/-- Big-endian decoding of the first 16 bytes; `none` when fewer than 16
bytes are available.  This is the total part of `PacketHeader.from_bytes`:
`HEADER_STRUCT.unpack(data[:16])` on a 16-byte slice cannot raise
`struct.error`, so the little-endian fallback branch in the source is
unreachable. -/
def readHeader (bs : List Nat) : Option PacketHeader :=
  if 16 ≤ bs.length then
    some ⟨u32 (bs.getD 0 0) (bs.getD 1 0) (bs.getD 2 0) (bs.getD 3 0),
          u16 (bs.getD 4 0) (bs.getD 5 0),
          u16 (bs.getD 6 0) (bs.getD 7 0),
          u32 (bs.getD 8 0) (bs.getD 9 0) (bs.getD 10 0) (bs.getD 11 0),
          u32 (bs.getD 12 0) (bs.getD 13 0) (bs.getD 14 0) (bs.getD 15 0)⟩
  else none

/-- `PacketHeader.from_bytes`: raises `ValueError` exactly when fewer than
16 bytes are supplied, decodes big-endian otherwise. -/
def fromBytes (bs : List Nat) : Except String PacketHeader :=
  match readHeader bs with
  | some h => .ok h
  | none => .error "data too short"

/-- `PacketHeader.to_bytes`. -/
def encodeHeader (h : PacketHeader) : List Nat :=
  be32 h.packetLength ++ be16 h.headerLength ++ be16 h.protocolVersion ++
    be32 h.operation ++ be32 h.sequenceId

/-- A frame on the wire: header followed by body bytes. -/
def encodeFrame (f : PacketHeader × List Nat) : List Nat :=
  encodeHeader f.1 ++ f.2

/-- A well-formed frame in the sense of the spec (§3 data model): the
sanity window accepted by the splitter, u16/u32 field ranges, full body
present, byte values in range. -/
def WellFormed (f : PacketHeader × List Nat) : Prop :=
  16 ≤ f.1.packetLength ∧ f.1.packetLength ≤ 10000 ∧ f.1.headerLength = 16 ∧
  f.1.protocolVersion < 65536 ∧ f.1.operation ≤ 1000 ∧
  f.1.sequenceId < 4294967296 ∧
  f.2.length = f.1.packetLength - 16 ∧ ∀ b ∈ f.2, b < 256

instance (f : PacketHeader × List Nat) : Decidable (WellFormed f) := by
  unfold WellFormed; infer_instance

/-! ## The splitter `DanmakuClient._handle_packet` (danmaku.py 465-572) -/

/-- The header validity test at danmaku.py lines 494-496:
`16 <= packet_length <= 10000 and header_length == 16 and
0 <= operation <= 1000`. -/
def headerOk (h : PacketHeader) : Bool :=
  decide (16 ≤ h.packetLength) && decide (h.packetLength ≤ 10000) &&
    (h.headerLength == 16) && decide (h.operation ≤ 1000)

/-- The resynchronisation scan at danmaku.py lines 486-503:
`for sync_offset in range(min(16, buffer_len - offset - 16))`, trying to
parse a header at each position and accepting the first valid one.  The
argument `rest` is the unconsumed suffix `buffer[offset:]`. -/
def findSync (rest : List Nat) : Option (Nat × PacketHeader) :=
  (List.range (min 16 (rest.length - 16))).findSome? fun so =>
    match readHeader (rest.drop so) with
    | some h => if headerOk h then some (so, h) else none
    | none => none

/-- Facts needed about a successful sync: the offset lies in the scan
window and the returned header is the valid header parsed there. -/
theorem findSync_eq_some {rest : List Nat} {so : Nat} {h : PacketHeader}
    (hf : findSync rest = some (so, h)) :
    so < min 16 (rest.length - 16) ∧ readHeader (rest.drop so) = some h ∧
      headerOk h = true := by
  obtain ⟨a, ha, hfa⟩ := List.exists_of_findSome?_eq_some hf
  rw [List.mem_range] at ha
  cases hr : readHeader (rest.drop a) with
  | none => rw [hr] at hfa; cases hfa
  | some h0 =>
    rw [hr] at hfa
    simp only at hfa
    by_cases hok : headerOk h0 = true
    · rw [if_pos hok] at hfa
      obtain ⟨hso, hh⟩ := Prod.mk.injEq .. ▸ Option.some.inj hfa
      subst hso; subst hh
      exact ⟨ha, hr, hok⟩
    · rw [if_neg hok] at hfa; cases hfa

theorem headerOk_packetLength {h : PacketHeader} (hk : headerOk h = true) :
    16 ≤ h.packetLength := by
  unfold headerOk at hk
  simp only [Bool.and_eq_true, decide_eq_true_eq, beq_iff_eq] at hk
  exact hk.1.1.1

attribute [irreducible] findSync

/-- One splitter result: the frames processed, the unconsumed suffix of
the buffer (before the clear-on-too-many-errors step), and the error
counter at loop exit. -/
structure SplitState where
  frames : List (PacketHeader × List Nat)
  rest : List Nat
  errors : Nat
deriving DecidableEq, Repr

/-- The `while offset < buffer_len and error_count < max_errors` loop of
`_handle_packet`, recursing on the unconsumed suffix.  Branches, in source
order: stop when the error budget (5) is exhausted or fewer than 16 bytes
remain; on a failed sync skip one byte and count an error; on a sync at
`so`, stop if the frame is incomplete (the cursor having already moved to
`so`), otherwise emit the frame, reset the error counter and continue
after `packet_length` bytes.  Every iteration of the source loop strictly
consumes buffer bytes (a sync returns a header with
`packet_length >= 16`), so structural recursion on a fuel of
`rest.length + 1` runs the loop to completion; `hpLoopF_congr` below shows
the result does not depend on the fuel once it exceeds the length. -/
def hpLoopF : Nat → List Nat → Nat → SplitState
  | 0, rest, ec => ⟨[], rest, ec⟩
  | fuel + 1, rest, ec =>
    if 5 ≤ ec then ⟨[], rest, ec⟩
    else if rest.length < 16 then ⟨[], rest, ec⟩
    else
      match findSync rest with
      | none => hpLoopF fuel (rest.drop 1) (ec + 1)
      | some (so, h) =>
        let aligned := rest.drop so
        if aligned.length < h.packetLength then ⟨[], aligned, ec⟩
        else
          let body := (aligned.drop 16).take (h.packetLength - 16)
          let r := hpLoopF fuel (aligned.drop h.packetLength) 0
          ⟨(h, body) :: r.frames, r.rest, r.errors⟩

def hpLoop (rest : List Nat) (ec : Nat) : SplitState :=
  hpLoopF (rest.length + 1) rest ec

theorem hpLoopF_congr :
    ∀ (fuel1 fuel2 : Nat) (rest : List Nat) (ec : Nat),
      rest.length < fuel1 → rest.length < fuel2 →
      hpLoopF fuel1 rest ec = hpLoopF fuel2 rest ec := by
  intro fuel1
  induction fuel1 with
  | zero => intro fuel2 rest ec h1; omega
  | succ f ih =>
    intro fuel2 rest ec h1 h2
    cases fuel2 with
    | zero => omega
    | succ g =>
      rw [hpLoopF, hpLoopF]
      by_cases hec : 5 ≤ ec
      · rw [if_pos hec, if_pos hec]
      · rw [if_neg hec, if_neg hec]
        by_cases hsh : rest.length < 16
        · rw [if_pos hsh, if_pos hsh]
        · rw [if_neg hsh, if_neg hsh]
          cases hf : findSync rest with
          | none =>
            simp only
            apply ih
            · simp only [List.length_drop]; omega
            · simp only [List.length_drop]; omega
          | some p =>
            obtain ⟨so, h⟩ := p
            have hpl := headerOk_packetLength (findSync_eq_some hf).2.2
            simp only
            by_cases hinc : (rest.drop so).length < h.packetLength
            · rw [if_pos hinc, if_pos hinc]
            · rw [if_neg hinc, if_neg hinc]
              have hrec : hpLoopF f ((rest.drop so).drop h.packetLength) 0 =
                  hpLoopF g ((rest.drop so).drop h.packetLength) 0 := by
                apply ih
                · simp only [List.length_drop]; omega
                · simp only [List.length_drop]; omega
              simp only [hrec]

/-- One unfolding of the loop, phrased over `hpLoop` itself. -/
theorem hpLoop_eq (rest : List Nat) (ec : Nat) :
    hpLoop rest ec =
      if 5 ≤ ec then ⟨[], rest, ec⟩
      else if rest.length < 16 then ⟨[], rest, ec⟩
      else
        match findSync rest with
        | none => hpLoop (rest.drop 1) (ec + 1)
        | some (so, h) =>
          let aligned := rest.drop so
          if aligned.length < h.packetLength then ⟨[], aligned, ec⟩
          else
            let body := (aligned.drop 16).take (h.packetLength - 16)
            let r := hpLoop (aligned.drop h.packetLength) 0
            ⟨(h, body) :: r.frames, r.rest, r.errors⟩ := by
  rw [hpLoop, hpLoopF]
  by_cases hec : 5 ≤ ec
  · rw [if_pos hec, if_pos hec]
  · rw [if_neg hec, if_neg hec]
    by_cases hsh : rest.length < 16
    · rw [if_pos hsh, if_pos hsh]
    · rw [if_neg hsh, if_neg hsh]
      cases hf : findSync rest with
      | none =>
        simp only
        apply hpLoopF_congr
        · simp only [List.length_drop]; omega
        · simp only [List.length_drop]; omega
      | some p =>
        obtain ⟨so, h⟩ := p
        have hpl := headerOk_packetLength (findSync_eq_some hf).2.2
        simp only
        by_cases hinc : (rest.drop so).length < h.packetLength
        · rw [if_pos hinc, if_pos hinc]
        · rw [if_neg hinc, if_neg hinc]
          have hrec : hpLoopF rest.length ((rest.drop so).drop h.packetLength) 0 =
              hpLoop ((rest.drop so).drop h.packetLength) 0 := by
            apply hpLoopF_congr
            · simp only [List.length_drop]; omega
            · simp only [List.length_drop]; omega
          simp only [hrec]

/-- `DanmakuClient._handle_packet`: run the loop from offset 0 with a
fresh error counter; if it exits with the error budget exhausted the
whole buffer is cleared, otherwise the consumed prefix is deleted.
Returns (frames processed, buffer contents afterwards). -/
def handlePacket (buffer : List Nat) : List (PacketHeader × List Nat) × List Nat :=
  let r := hpLoop buffer 0
  if 5 ≤ r.errors then (r.frames, []) else (r.frames, r.rest)

/-! ## The nested re-split `DanmakuClient._parse_messages` (604-622) -/

/-- The `while offset < len(data)` walk of `_parse_messages`: parse a
header (a `from_bytes` failure on fewer than 16 bytes breaks the loop),
slice the body with Python clamping semantics, advance by
`packet_length`.  There is no validity check, no resynchronisation and no
retention of a partial suffix.  `packet_length` may be 0, in which case
the Python loop never advances; the fuel argument makes the model total,
and `parseMessages` supplies enough fuel for every advancing run. -/
def pmLoop : Nat → List Nat → List (PacketHeader × List Nat)
  | 0, _ => []
  | _, [] => []
  | fuel + 1, b :: t =>
    match readHeader (b :: t) with
    | none => []
    | some h =>
      (h, ((b :: t).drop 16).take (h.packetLength - 16)) ::
        pmLoop fuel ((b :: t).drop h.packetLength)

def parseMessages (data : List Nat) : List (PacketHeader × List Nat) :=
  pmLoop (data.length + 1) data

/-- Concatenation of encoded frames, the shape of a clean multi-frame
buffer. -/
def concatFrames (fs : List (PacketHeader × List Nat)) : List Nat :=
  (fs.map encodeFrame).flatten

/-! ## Codec lemmas -/

theorem readHeader_cons (b0 b1 b2 b3 b4 b5 b6 b7 b8 b9 b10 b11 b12 b13 b14 b15 : Nat)
    (t : List Nat) :
    readHeader (b0 :: b1 :: b2 :: b3 :: b4 :: b5 :: b6 :: b7 :: b8 :: b9 :: b10 ::
        b11 :: b12 :: b13 :: b14 :: b15 :: t) =
      some ⟨u32 b0 b1 b2 b3, u16 b4 b5, u16 b6 b7, u32 b8 b9 b10 b11,
        u32 b12 b13 b14 b15⟩ := by
  have hlen : 16 ≤ (b0 :: b1 :: b2 :: b3 :: b4 :: b5 :: b6 :: b7 :: b8 :: b9 :: b10 ::
      b11 :: b12 :: b13 :: b14 :: b15 :: t).length := by
    simp [List.length_cons]
  rw [readHeader, if_pos hlen]
  rfl

theorem readHeader_short {bs : List Nat} (h : bs.length < 16) : readHeader bs = none := by
  rw [readHeader, if_neg (by omega)]

/-- Decoding the serialized header recovers the fields, provided they fit
their wire widths. -/
theorem readHeader_encode (h : PacketHeader) (t : List Nat)
    (h1 : h.packetLength < 4294967296) (h2 : h.headerLength < 65536)
    (h3 : h.protocolVersion < 65536) (h4 : h.operation < 4294967296)
    (h5 : h.sequenceId < 4294967296) :
    readHeader (encodeHeader h ++ t) = some h := by
  obtain ⟨pl, hl, pv, op, sq⟩ := h
  simp only [encodeHeader, be32, be16, List.cons_append, List.nil_append]
  rw [readHeader_cons]
  simp only [PacketHeader.mk.injEq, Option.some.injEq, u32, u16] at *
  refine ⟨?_, ?_, ?_, ?_, ?_⟩ <;> omega

theorem encodeHeader_length (h : PacketHeader) : (encodeHeader h).length = 16 := by
  simp [encodeHeader, be32, be16]

theorem encodeFrame_length {f : PacketHeader × List Nat} (hwf : WellFormed f) :
    (encodeFrame f).length = f.1.packetLength := by
  obtain ⟨h1, -, -, -, -, -, h7, -⟩ := hwf
  simp [encodeFrame, encodeHeader_length, h7]
  omega

theorem wellFormed_readHeader {f : PacketHeader × List Nat} (hwf : WellFormed f)
    (t : List Nat) : readHeader (encodeFrame f ++ t) = some f.1 := by
  obtain ⟨h1, h2, h3, h4, h5, h6, -, -⟩ := hwf
  rw [encodeFrame, List.append_assoc]
  exact readHeader_encode f.1 _ (by omega) (by omega) (by omega) (by omega) h6

theorem wellFormed_headerOk {f : PacketHeader × List Nat} (hwf : WellFormed f) :
    headerOk f.1 = true := by
  obtain ⟨h1, h2, h3, -, h5, -, -, -⟩ := hwf
  simp [headerOk, h1, h2, h3, h5]

theorem encodeFrame_drop16 {f : PacketHeader × List Nat} (t : List Nat) :
    (encodeFrame f ++ t).drop 16 = f.2 ++ t := by
  rw [encodeFrame, List.append_assoc]
  have := encodeHeader_length f.1
  calc (encodeHeader f.1 ++ (f.2 ++ t)).drop 16
      = (encodeHeader f.1 ++ (f.2 ++ t)).drop (encodeHeader f.1).length := by rw [this]
    _ = f.2 ++ t := List.drop_left _ _

theorem encodeFrame_body {f : PacketHeader × List Nat} (hwf : WellFormed f)
    (t : List Nat) :
    ((encodeFrame f ++ t).drop 16).take (f.1.packetLength - 16) = f.2 := by
  rw [encodeFrame_drop16]
  have h7 := hwf.2.2.2.2.2.2.1
  rw [← h7]
  exact List.take_left _ _

theorem encodeFrame_dropAll {f : PacketHeader × List Nat} (hwf : WellFormed f)
    (t : List Nat) : (encodeFrame f ++ t).drop f.1.packetLength = t := by
  have hl := encodeFrame_length hwf
  calc (encodeFrame f ++ t).drop f.1.packetLength
      = (encodeFrame f ++ t).drop (encodeFrame f).length := by rw [hl]
    _ = t := List.drop_left _ _

/-! ## Splitter lemmas -/

/-- A sync at offset 0 on a buffer that starts with a well-formed frame
(and holds at least 17 bytes). -/
theorem findSync_frame {f : PacketHeader × List Nat} (hwf : WellFormed f)
    (t : List Nat) (hlen : 17 ≤ (encodeFrame f ++ t).length) :
    findSync (encodeFrame f ++ t) = some (0, f.1) := by
  unfold findSync
  have hbound : 1 ≤ min 16 ((encodeFrame f ++ t).length - 16) := by omega
  obtain ⟨m, hm⟩ : ∃ m, min 16 ((encodeFrame f ++ t).length - 16) = m + 1 :=
    ⟨_, (Nat.succ_pred_eq_of_pos hbound).symm⟩
  rw [hm, List.range_succ_eq_map, List.findSome?_cons]
  simp only [List.drop_zero, wellFormed_readHeader hwf, wellFormed_headerOk hwf, if_true]

theorem hpLoop_short {rest : List Nat} (h : rest.length < 16) (ec : Nat) :
    hpLoop rest ec = ⟨[], rest, ec⟩ := by
  rw [hpLoop_eq]
  by_cases hec : 5 ≤ ec
  · rw [if_pos hec]
  · rw [if_neg hec, if_pos h]

theorem hpLoop_nil (ec : Nat) : hpLoop [] ec = ⟨[], [], ec⟩ :=
  hpLoop_short (by simp) ec

/-- Processing one complete well-formed frame at the head of the buffer:
the frame is emitted, the error counter resets, and the loop continues on
the remaining bytes.  Requires more than 16 bytes in view (the resync
window `range(min(16, buffer_len - offset - 16))` is empty on exactly 16
bytes). -/
theorem hpLoop_frame {f : PacketHeader × List Nat} (hwf : WellFormed f)
    (t : List Nat) (hlen : 17 ≤ (encodeFrame f ++ t).length) (ec : Nat)
    (hec : ec < 5) :
    hpLoop (encodeFrame f ++ t) ec =
      ⟨f :: (hpLoop t 0).frames, (hpLoop t 0).rest, (hpLoop t 0).errors⟩ := by
  have hfl := encodeFrame_length hwf
  rw [hpLoop_eq]
  rw [if_neg (by omega), if_neg (by omega)]
  split
  · next heq => rw [findSync_frame hwf t hlen] at heq; cases heq
  · next so h heq =>
    rw [findSync_frame hwf t hlen] at heq
    obtain ⟨hso, hh⟩ := Prod.mk.injEq .. ▸ Option.some.inj heq
    subst hso; subst hh
    simp only [List.drop_zero]
    rw [if_neg (by rw [List.length_append, hfl]; omega)]
    rw [encodeFrame_body hwf, encodeFrame_dropAll hwf]

/-- Splitting a clean concatenation of well-formed frames followed by a
residue the loop leaves untouched.  The side condition keeps the final
frame out of the empty-resync-window trap: the bytes after it (its own
tail plus the residue) must not make the view exactly 16 bytes. -/
theorem hpLoop_concat (fs : List (PacketHeader × List Nat)) (p : List Nat)
    (hwf : ∀ f ∈ fs, WellFormed f)
    (hp : hpLoop p 0 = ⟨[], p, 0⟩)
    (hlast : ∀ g, fs.getLast? = some g → 17 ≤ g.1.packetLength + p.length) :
    hpLoop (concatFrames fs ++ p) 0 = ⟨fs, p, 0⟩ := by
  induction fs with
  | nil => simpa [concatFrames] using hp
  | cons f fs ih =>
    have hwff : WellFormed f := hwf f (by simp)
    have hfl := encodeFrame_length hwff
    have hlen : 17 ≤ (encodeFrame f ++ (concatFrames fs ++ p)).length := by
      cases fs with
      | nil =>
        have := hlast f (by simp)
        simp only [concatFrames, List.map_nil, List.flatten_nil, List.nil_append]
        rw [List.length_append, hfl]
        omega
      | cons g gs =>
        have hwfg : WellFormed g := hwf g (by simp)
        have hgl := encodeFrame_length hwfg
        have h16g : 16 ≤ (encodeFrame g).length := by rw [hgl]; exact hwfg.1
        have h16f : 16 ≤ (encodeFrame f).length := by rw [hfl]; exact hwff.1
        have : (encodeFrame g).length ≤ (concatFrames (g :: gs) ++ p).length := by
          simp only [concatFrames, List.map_cons, List.flatten_cons, List.append_assoc]
          rw [List.length_append]
          omega
        rw [List.length_append]
        omega
    have hstep := hpLoop_frame hwff (concatFrames fs ++ p) ?_ 0 (by omega)
    · have hrec : hpLoop (concatFrames fs ++ p) 0 = ⟨fs, p, 0⟩ := by
        apply ih (fun g hg => hwf g (List.mem_cons_of_mem _ hg))
        intro g hg
        apply hlast
        cases fs with
        | nil => simp at hg
        | cons a as => rw [List.getLast?_cons_cons]; exact hg
      calc hpLoop (concatFrames (f :: fs) ++ p) 0
          = hpLoop (encodeFrame f ++ (concatFrames fs ++ p)) 0 := by
            simp [concatFrames, List.append_assoc]
        _ = ⟨f :: (hpLoop (concatFrames fs ++ p) 0).frames,
              (hpLoop (concatFrames fs ++ p) 0).rest,
              (hpLoop (concatFrames fs ++ p) 0).errors⟩ := hstep
        _ = ⟨f :: fs, p, 0⟩ := by rw [hrec]
    · exact hlen

/-- A sync at offset 0 whenever the view starts with 16 bytes that decode
to a valid header and strictly more than 16 bytes are in view. -/
theorem findSync_header (h : PacketHeader) (t : List Nat)
    (h1 : h.packetLength < 4294967296) (h2 : h.headerLength < 65536)
    (h3 : h.protocolVersion < 65536) (h4 : h.operation < 4294967296)
    (h5 : h.sequenceId < 4294967296) (hok : headerOk h = true)
    (hlen : 17 ≤ (encodeHeader h ++ t).length) :
    findSync (encodeHeader h ++ t) = some (0, h) := by
  unfold findSync
  have hbound : 1 ≤ min 16 ((encodeHeader h ++ t).length - 16) := by omega
  obtain ⟨m, hm⟩ : ∃ m, min 16 ((encodeHeader h ++ t).length - 16) = m + 1 :=
    ⟨_, (Nat.succ_pred_eq_of_pos hbound).symm⟩
  rw [hm, List.range_succ_eq_map, List.findSome?_cons]
  rw [List.drop_zero, readHeader_encode h t h1 h2 h3 h4 h5]
  simp only [hok, if_true]

/-- `findSync` returns `none` when no position in the scan window holds a
valid header. -/
theorem findSync_none {rest : List Nat}
    (hnone : ∀ k, ((readHeader (rest.drop k)).map headerOk).getD false = false) :
    findSync rest = none := by
  unfold findSync
  rw [List.findSome?_eq_none_iff]
  intro so hso
  have := hnone so
  cases hr : readHeader (rest.drop so) with
  | none => rfl
  | some h =>
    rw [hr] at this
    simp at this
    simp [this]

theorem hpLoop_stop5 (rest : List Nat) : hpLoop rest 5 = ⟨[], rest, 5⟩ := by
  rw [hpLoop_eq, if_pos (by omega)]

theorem hpLoop_skip {rest : List Nat} {ec : Nat} (hec : ec < 5)
    (hlen : 16 ≤ rest.length) (hnone : findSync rest = none) :
    hpLoop rest ec = hpLoop (rest.drop 1) (ec + 1) := by
  rw [hpLoop_eq, if_neg (by omega), if_neg (by omega), hnone]

/-- On a valid but incomplete frame prefix the loop stops, retaining the
prefix. -/
theorem hpLoop_take {g : PacketHeader × List Nat} (hwf : WellFormed g) {n : Nat}
    (h17 : 17 ≤ n) (hn : n < g.1.packetLength) (ec : Nat) (hec : ec < 5) :
    hpLoop ((encodeFrame g).take n) ec = ⟨[], (encodeFrame g).take n, ec⟩ := by
  have hfl := encodeFrame_length hwf
  have hlen : ((encodeFrame g).take n).length = n := by
    rw [List.length_take]
    omega
  have htake : (encodeFrame g).take n = encodeHeader g.1 ++ g.2.take (n - 16) := by
    rw [encodeFrame, List.take_append_eq_append_take,
      List.take_of_length_le (by rw [encodeHeader_length g.1]; omega),
      encodeHeader_length]
  have hok := wellFormed_headerOk hwf
  obtain ⟨w1, w2, w3, w4, w5, w6, w7, w8⟩ := hwf
  have hsync : findSync ((encodeFrame g).take n) = some (0, g.1) := by
    rw [htake]
    exact findSync_header g.1 _ (by omega) (by omega) (by omega) (by omega) w6
      hok (by rw [← htake, hlen]; omega)
  rw [hpLoop_eq, if_neg (by omega), if_neg (by omega), hsync]
  simp only [List.drop_zero]
  rw [if_pos (by rw [hlen]; omega)]

set_option allowUnsafeReducibility true in
attribute [semireducible] findSync

/-! ## Decompression dispatch `_handle_message` (danmaku.py 574-602)

The zlib and brotli decompressors are external C libraries, modelled as
oracles: `zlibD body = none` means `zlib.decompress` raised,
`brotliD = none` means `import brotli` raised `ImportError`, and
`brotliD = some bd` with `bd body = none` means the module was importable
but `brotli.decompress` raised.  A `none` overall result is an exception
reaching the outer `try` of `_handle_message`: the frame is dropped and
nothing is parsed. -/

def decompressDispatch (zlibD : List Nat → Option (List Nat))
    (brotliD : Option (List Nat → Option (List Nat)))
    (protocolVersion : Nat) (body : List Nat) : Option (List Nat) :=
  if protocolVersion = 0 then some body
  else if protocolVersion = 2 then zlibD body
  else if protocolVersion = 3 then
    match brotliD with
    | some bd => bd body
    | none => zlibD body
  else some body

/-- `_handle_message`: decompress, then re-split the payload with
`_parse_messages`; on a decompression error nothing is parsed. -/
def handleMessage (zlibD : List Nat → Option (List Nat))
    (brotliD : Option (List Nat → Option (List Nat)))
    (protocolVersion : Nat) (body : List Nat) : List (PacketHeader × List Nat) :=
  match decompressDispatch zlibD brotliD protocolVersion body with
  | some data => parseMessages data
  | none => []

/-! ## Lite record decoder (`interact_word_v2_parser.py` 100-264)

`InteractWordV2Parser._parse_simple` and `_parse_user_info` walk a
tag/wire-type byte record.  All index accesses in the source are guarded
by `i < len(...)` checks, which the suffix recursion below mirrors; the
walk is total.  Decoded strings are kept as their UTF-8 byte spans, with
`utf8Valid` standing for `bytes.decode('utf-8')` succeeding. -/

/-- The varint accumulation loop (lines 117-128 and 140-150):
`value |= (byte & 0x7F) << shift` seven bits at a time, stopping at a
clear continuation bit, at end of input, or once `shift` would exceed 63.
Returns the value and the unconsumed suffix. -/
def readVarint : List Nat → Nat → Nat → Nat × List Nat
  | [], _, value => (value, [])
  | b :: rest, shift, value =>
    let v := value ||| ((b &&& 127) <<< shift)
    if b &&& 128 = 0 then (v, rest)
    else if 63 < shift + 7 then (v, rest)
    else readVarint rest (shift + 7) v

/-- The varint skip in `_parse_user_info` (lines 217-222): skip bytes
with the continuation bit set, then one terminating byte if present. -/
def skipVarint : List Nat → List Nat
  | [] => []
  | b :: rest => if b &&& 128 = 0 then rest else skipVarint rest

/-- A UTF-8 continuation byte. -/
def utf8Cont (b : Nat) : Bool := 128 ≤ b && b ≤ 191

/-- Strict UTF-8 validity of a byte span — the success condition of
`bytes.decode('utf-8')` (overlongs and surrogates rejected). -/
def utf8Valid : List Nat → Bool
  | [] => true
  | b :: rest =>
    if b ≤ 127 then utf8Valid rest
    else if 194 ≤ b && b ≤ 223 then
      match rest with
      | c :: r => utf8Cont c && utf8Valid r
      | [] => false
    else if b = 224 then
      match rest with
      | c :: d :: r => (160 ≤ c && c ≤ 191) && utf8Cont d && utf8Valid r
      | _ => false
    else if (225 ≤ b && b ≤ 236) || b = 238 || b = 239 then
      match rest with
      | c :: d :: r => utf8Cont c && utf8Cont d && utf8Valid r
      | _ => false
    else if b = 237 then
      match rest with
      | c :: d :: r => (128 ≤ c && c ≤ 159) && utf8Cont d && utf8Valid r
      | _ => false
    else if b = 240 then
      match rest with
      | c :: d :: e :: r => (144 ≤ c && c ≤ 191) && utf8Cont d && utf8Cont e && utf8Valid r
      | _ => false
    else if 241 ≤ b && b ≤ 243 then
      match rest with
      | c :: d :: e :: r => utf8Cont c && utf8Cont d && utf8Cont e && utf8Valid r
      | _ => false
    else if b = 244 then
      match rest with
      | c :: d :: e :: r => (128 ≤ c && c ≤ 143) && utf8Cont d && utf8Cont e && utf8Valid r
      | _ => false
    else false

/-- The `result` dictionary of `_parse_user_info`: fields 1 (face) and
2 (name). -/
structure UserInfoFields where
  face : Option (List Nat)
  name : Option (List Nat)
deriving DecidableEq, Repr

/-- The `while i < len(data)` walk of `_parse_user_info` (lines 206-258).
Wire type 0 skips a varint, wire type 2 reads a length, takes the span
when fully present (breaking otherwise) and stores a UTF-8-decodable
span under field 1 (face) or 2 (name), wire type 5 skips 4 bytes, and
any other wire type ends the walk.  Every iteration consumes at least the
tag byte, so fuel `length + 1` runs the loop to completion
(`puiLoopF_congr` below). -/
def puiLoopF : Nat → List Nat → UserInfoFields → UserInfoFields
  | 0, _, acc => acc
  | _ + 1, [], acc => acc
  | fuel + 1, b :: rest, acc =>
    let fieldNum := b / 8
    let wt := b % 8
    if wt = 0 then puiLoopF fuel (skipVarint rest) acc
    else if wt = 2 then
      let r := readVarint rest 0 0
      if r.1 ≤ r.2.length then
        let d := r.2.take r.1
        let acc2 :=
          if utf8Valid d then
            if fieldNum = 1 then { acc with face := some d }
            else if fieldNum = 2 then { acc with name := some d }
            else acc
          else acc
        puiLoopF fuel (r.2.drop r.1) acc2
      else acc
    else if wt = 5 then puiLoopF fuel (rest.drop 4) acc
    else acc

def parseUserInfo (data : List Nat) : UserInfoFields :=
  puiLoopF (data.length + 1) data ⟨none, none⟩

/-- The `result` dictionary of `_parse_simple`, before defaults are
filled: uid (field 1), uname (field 2), uinfo-derived merges (field 3),
face (field 4), msg_type (field 5), timestamp (field 6). -/
structure SimpleFields where
  uid : Option Nat
  uname : Option (List Nat)
  msgType : Option Nat
  timestamp : Option Nat
  face : Option (List Nat)
deriving DecidableEq, Repr

/-- Python truthiness of `result.get("uname")`: missing or the empty
string. -/
def unameBlank : Option (List Nat) → Bool
  | none => true
  | some [] => true
  | some (_ :: _) => false

/-- Merging a nested user-info record (lines 158-163): the nested name is
used only when `uname` is still falsy; the nested face always wins. -/
def mergeUinfo (acc : SimpleFields) (ui : UserInfoFields) : SimpleFields :=
  let acc2 :=
    match ui.name with
    | some nm => if unameBlank acc.uname then { acc with uname := some nm } else acc
    | none => acc
  match ui.face with
  | some fc => { acc2 with face := some fc }
  | none => acc2

/-- The `while i < len(pb_bytes)` walk of `_parse_simple` (lines
106-182).  Wire type 0 reads a varint into uid/msg_type/timestamp by
field number (other field numbers are read and dropped); wire type 2
reads a length, breaks if the span is truncated, recursively decodes
field 3 with `_parse_user_info`, stores UTF-8-decodable spans for fields
2 and 4, and skips other field numbers; wire type 5 skips 4 bytes; any
other wire type ends the walk.  Fuel as in `puiLoopF`. -/
def walkSimpleF : Nat → List Nat → SimpleFields → SimpleFields
  | 0, _, acc => acc
  | _ + 1, [], acc => acc
  | fuel + 1, b :: rest, acc =>
    let fieldNum := b / 8
    let wt := b % 8
    if wt = 0 then
      let r := readVarint rest 0 0
      let acc2 :=
        if fieldNum = 1 then { acc with uid := some r.1 }
        else if fieldNum = 5 then { acc with msgType := some r.1 }
        else if fieldNum = 6 then { acc with timestamp := some r.1 }
        else acc
      walkSimpleF fuel r.2 acc2
    else if wt = 2 then
      let r := readVarint rest 0 0
      if r.1 ≤ r.2.length then
        let d := r.2.take r.1
        let acc2 :=
          if fieldNum = 3 then mergeUinfo acc (parseUserInfo d)
          else if utf8Valid d then
            if fieldNum = 2 then { acc with uname := some d }
            else if fieldNum = 4 then { acc with face := some d }
            else acc
          else acc
        walkSimpleF fuel (r.2.drop r.1) acc2
      else acc
    else if wt = 5 then walkSimpleF fuel (rest.drop 4) acc
    else acc

def walkSimple (bs : List Nat) (acc : SimpleFields) : SimpleFields :=
  walkSimpleF (bs.length + 1) bs acc

/-- `_parse_simple`'s return value with the required defaults filled
(lines 184-194): `uid=0`, empty name, `msg_type=1`, `timestamp=0`. -/
structure InteractRecord where
  uid : Nat
  uname : List Nat
  msgType : Nat
  timestamp : Nat
  face : Option (List Nat)
deriving DecidableEq, Repr

def decodeSimple (bs : List Nat) : InteractRecord :=
  let r := walkSimple bs ⟨none, none, none, none, none⟩
  ⟨r.uid.getD 0, r.uname.getD [], r.msgType.getD 1, r.timestamp.getD 0, r.face⟩

/-- Standard base-128 varint encoding (low group first, continuation bit
on all but the last byte) — the wire format the decoder's varint loop
reads. -/
def varintEnc (v : Nat) : List Nat :=
  if v < 128 then [v] else (v % 128 + 128) :: varintEnc (v / 128)
termination_by v
decreasing_by exact Nat.div_lt_self (by omega) (by omega)

/-! ## Lemmas about the nested re-split -/

theorem pmLoop_empty (fuel : Nat) : pmLoop fuel [] = [] := by
  cases fuel <;> rfl

theorem pmLoop_cons {f : PacketHeader × List Nat} (hwf : WellFormed f)
    (t : List Nat) (fuel : Nat) :
    pmLoop (fuel + 1) (encodeFrame f ++ t) = f :: pmLoop fuel t := by
  have hfl := encodeFrame_length hwf
  obtain ⟨b, t0, hbt⟩ : ∃ b t0, encodeFrame f ++ t = b :: t0 := by
    cases hc : encodeFrame f ++ t with
    | nil =>
      exfalso
      have hlen2 := congrArg List.length hc
      rw [List.length_append, hfl] at hlen2
      simp only [List.length_nil] at hlen2
      have h1 := hwf.1
      omega
    | cons b t0 => exact ⟨b, t0, rfl⟩
  rw [hbt, pmLoop, ← hbt, wellFormed_readHeader hwf t]
  simp only
  rw [encodeFrame_body hwf, encodeFrame_dropAll hwf]

theorem concatFrames_cons (f : PacketHeader × List Nat)
    (fs : List (PacketHeader × List Nat)) :
    concatFrames (f :: fs) = encodeFrame f ++ concatFrames fs := by
  simp [concatFrames]

theorem concatFrames_count_le (fs : List (PacketHeader × List Nat))
    (hwf : ∀ f ∈ fs, WellFormed f) :
    fs.length ≤ (concatFrames fs).length := by
  induction fs with
  | nil => simp [concatFrames]
  | cons f fs ih =>
    have h16 : 16 ≤ (encodeFrame f).length := by
      rw [encodeFrame_length (hwf f (by simp))]
      exact (hwf f (by simp)).1
    rw [concatFrames_cons, List.length_append, List.length_cons]
    have := ih (fun g hg => hwf g (List.mem_cons_of_mem _ hg))
    omega

theorem pmLoop_concat (fs : List (PacketHeader × List Nat))
    (hwf : ∀ f ∈ fs, WellFormed f) :
    ∀ fuel, fs.length < fuel → pmLoop fuel (concatFrames fs) = fs := by
  induction fs with
  | nil =>
    intro fuel _
    simpa [concatFrames] using pmLoop_empty fuel
  | cons f fs ih =>
    intro fuel hfuel
    obtain ⟨k, rfl⟩ : ∃ k, fuel = k + 1 := by
      cases fuel with
      | zero => omega
      | succ k => exact ⟨k, rfl⟩
    rw [concatFrames_cons, pmLoop_cons (hwf f (by simp))]
    rw [ih (fun g hg => hwf g (List.mem_cons_of_mem _ hg)) k (by simp at hfuel ⊢; omega)]

/-! ## Further splitter lemmas for claims C1, C2, C4 -/

theorem getLast?_mem {α : Type} {l : List α} {a : α} (h : l.getLast? = some a) :
    a ∈ l := by
  induction l with
  | nil => cases h
  | cons b t ih =>
    cases t with
    | nil =>
      rw [List.getLast?_singleton] at h
      cases h
      simp
    | cons c u =>
      rw [List.getLast?_cons_cons] at h
      exact List.mem_cons_of_mem _ (ih h)

/-- The splitter on a clean sequence of frames plus a partial trailing
prefix, under the side conditions the implementation imposes. -/
theorem handlePacket_concat (fs : List (PacketHeader × List Nat))
    (g : PacketHeader × List Nat) (n : Nat)
    (hwf : ∀ f ∈ fs, WellFormed f) (hg : WellFormed g)
    (hn : n < g.1.packetLength) (hn16 : n ≠ 16)
    (hlast : n = 0 → ∀ f0, fs.getLast? = some f0 → f0.1.packetLength ≠ 16) :
    handlePacket (concatFrames fs ++ (encodeFrame g).take n) =
      (fs, (encodeFrame g).take n) := by
  have hgl := encodeFrame_length hg
  have hplen : ((encodeFrame g).take n).length = n := by
    rw [List.length_take]
    omega
  have hbase : hpLoop ((encodeFrame g).take n) 0 = ⟨[], (encodeFrame g).take n, 0⟩ := by
    by_cases h16 : n < 16
    · exact hpLoop_short (by rw [hplen]; omega) 0
    · exact hpLoop_take hg (by omega) hn 0 (by omega)
  have hconc := hpLoop_concat fs ((encodeFrame g).take n) hwf hbase ?_
  · rw [handlePacket]
    simp only [hconc]
    rfl
  · intro f0 hf0
    rw [hplen]
    have hwf0 := hwf f0 (getLast?_mem hf0)
    by_cases hz : n = 0
    · have := hlast hz f0 hf0
      have := hwf0.1
      omega
    · have := hwf0.1
      omega

theorem headerLength_of_readHeader_cons {g : Nat} {bs : List Nat}
    {h0 : PacketHeader} (hlen : 16 ≤ bs.length)
    (hh : readHeader (g :: bs) = some h0) :
    h0.headerLength = u16 (bs.getD 3 0) (bs.getD 4 0) := by
  rw [readHeader, if_pos (by simp; omega)] at hh
  cases hh
  rfl

theorem headerOk_false_of_hl {h : PacketHeader} (hne : h.headerLength ≠ 16) :
    headerOk h = false := by
  unfold headerOk
  rw [beq_eq_false_iff_ne.mpr hne]
  simp

/-- Any tentative header read across the garbage byte at offset 0 is
invalid: its header-length field decodes to `(packet_length mod 256)*256`,
never 16. -/
theorem resync_offset0_bad {g : Nat} {f : PacketHeader × List Nat}
    (hwf : WellFormed f) {h0 : PacketHeader}
    (hh : readHeader (g :: encodeFrame f) = some h0) :
    headerOk h0 = false := by
  have hfl := encodeFrame_length hwf
  have h3 : (encodeFrame f).getD 3 0 = f.1.packetLength % 256 := by
    obtain ⟨⟨pl, hl, pv, op, sq⟩, body⟩ := f
    simp [encodeFrame, encodeHeader, be32, be16]
  have h4 : (encodeFrame f).getD 4 0 = f.1.headerLength / 256 % 256 := by
    obtain ⟨⟨pl, hl, pv, op, sq⟩, body⟩ := f
    simp [encodeFrame, encodeHeader, be32, be16]
  have hhl := headerLength_of_readHeader_cons (by rw [hfl]; exact hwf.1) hh
  apply headerOk_false_of_hl
  rw [hhl, h3, h4, hwf.2.2.1]
  unfold u16
  omega

/-- Resynchronisation after one corrupted byte: the frame behind it is
recovered whenever it carries a nonempty body. -/
theorem handlePacket_resync (g : Nat) (f : PacketHeader × List Nat)
    (hwf : WellFormed f) (h17 : 17 ≤ f.1.packetLength) :
    handlePacket (g :: encodeFrame f) = ([f], []) := by
  have hfl := encodeFrame_length hwf
  have hok := wellFormed_headerOk hwf
  have hro : readHeader (encodeFrame f) = some f.1 := by
    have := wellFormed_readHeader hwf []
    rwa [List.append_nil] at this
  have hb : ((encodeFrame f).drop 16).take (f.1.packetLength - 16) = f.2 := by
    have := encodeFrame_body hwf []
    rwa [List.append_nil] at this
  have hdall : (encodeFrame f).drop f.1.packetLength = [] := by
    have := encodeFrame_dropAll hwf []
    rwa [List.append_nil] at this
  have hlen : (g :: encodeFrame f).length = f.1.packetLength + 1 := by
    simp [hfl]
  have hsync : findSync (g :: encodeFrame f) = some (1, f.1) := by
    unfold findSync
    obtain ⟨m, hm⟩ : ∃ m, min 16 ((g :: encodeFrame f).length - 16) = m + 2 := by
      refine ⟨min 16 ((g :: encodeFrame f).length - 16) - 2, ?_⟩
      rw [hlen]
      omega
    rw [hm, List.range_succ_eq_map, List.range_succ_eq_map]
    simp only [List.map_cons, List.findSome?_cons, List.drop_zero]
    cases hr0 : readHeader (g :: encodeFrame f) with
    | none =>
      exfalso
      rw [readHeader, if_pos (by rw [hlen]; omega)] at hr0
      cases hr0
    | some h0 =>
      have hbad0 := resync_offset0_bad hwf hr0
      simp only [hbad0, Bool.false_eq_true, if_false, List.drop_succ_cons,
        List.drop_zero, hro, hok, if_true]
  have hmain : hpLoop (g :: encodeFrame f) 0 = ⟨[f], [], 0⟩ := by
    rw [hpLoop_eq, if_neg (by omega), if_neg (by rw [hlen]; omega), hsync]
    simp only
    have hd1 : (g :: encodeFrame f).drop 1 = encodeFrame f := rfl
    rw [hd1, if_neg (by rw [hfl]; omega), hb, hdall, hpLoop_nil]
  simp [handlePacket, hmain]

/-- After five consecutive resynchronisation failures the splitter
discards the whole remaining buffer. -/
theorem handlePacket_garbage (buf : List Nat) (hlen : 20 ≤ buf.length)
    (hbad : ∀ k, k < buf.length →
      ((readHeader (buf.drop k)).map headerOk).getD false = false) :
    handlePacket buf = ([], []) := by
  have hnone : ∀ j, findSync (buf.drop j) = none := by
    intro j
    apply findSync_none
    intro k
    rw [List.drop_drop]
    by_cases hk : j + k < buf.length
    · exact hbad (j + k) hk
    · rw [readHeader_short (by rw [List.length_drop]; omega)]
      rfl
  have hstep : ∀ j, j < 5 → hpLoop (buf.drop j) j = hpLoop (buf.drop (j + 1)) (j + 1) := by
    intro j hj
    have h := @hpLoop_skip (buf.drop j) j hj
      (by rw [List.length_drop]; omega) (hnone j)
    rwa [List.drop_drop] at h
  have e0 : hpLoop buf 0 = hpLoop (buf.drop 1) 1 := by
    have := hstep 0 (by omega)
    rwa [List.drop_zero] at this
  have hchain : hpLoop buf 0 = ⟨[], buf.drop 5, 5⟩ := by
    rw [e0, hstep 1 (by omega), hstep 2 (by omega), hstep 3 (by omega),
      hstep 4 (by omega), hpLoop_stop5]
  simp [handlePacket, hchain]

/-! ## Claim C1 -/

/-- C1 (amended): for a buffer of N well-formed frames followed by a
proper prefix of a further well-formed frame, `_handle_packet` processes
exactly the N frames in order and retains the trailing prefix — provided
the prefix is not exactly 16 bytes long, and, when it is empty, the final
frame is not a bare 16-byte header (in both excluded cases the
resynchronisation window `range(min(16, remaining - 16))` is empty on the
16 remaining bytes and the splitter skips a byte instead). -/
theorem C1_split_frames (fs : List (PacketHeader × List Nat))
    (g : PacketHeader × List Nat) (n : Nat)
    (hwf : ∀ f ∈ fs, WellFormed f) (hg : WellFormed g)
    (hn : n < g.1.packetLength) (hn16 : n ≠ 16)
    (hlast : n = 0 → ∀ f0, fs.getLast? = some f0 → f0.1.packetLength ≠ 16) :
    handlePacket (concatFrames fs ++ (encodeFrame g).take n) =
      (fs, (encodeFrame g).take n) :=
  handlePacket_concat fs g n hwf hg hn hn16 hlast

/-- C1 witness: two frames plus a 5-byte partial prefix are split into
exactly those two frames with the prefix retained. -/
theorem C1_split_frames_witness :
    handlePacket (concatFrames [(⟨17, 16, 0, 5, 0⟩, [65]), (⟨20, 16, 2, 3, 1⟩, [9, 9, 9, 9])] ++
        (encodeFrame (⟨18, 16, 0, 2, 0⟩, [1, 2])).take 5) =
      ([(⟨17, 16, 0, 5, 0⟩, [65]), (⟨20, 16, 2, 3, 1⟩, [9, 9, 9, 9])],
        (encodeFrame (⟨18, 16, 0, 2, 0⟩, [1, 2])).take 5) :=
  C1_split_frames [(⟨17, 16, 0, 5, 0⟩, [65]), (⟨20, 16, 2, 3, 1⟩, [9, 9, 9, 9])]
    (⟨18, 16, 0, 2, 0⟩, [1, 2]) 5 (by decide) (by decide) (by decide) (by decide)
    (fun h => absurd h (by decide))

/-- C1 counterexample: a single well-formed 16-byte (header-only) frame
with an empty trailing prefix.  The claim demands that the one frame be
processed and the buffer be left empty; the splitter instead processes no
frame (its scan window `range(min(16, 16 - 16))` is empty), skips one
byte, and leaves the 15-byte tail in the buffer. -/
theorem C1_counterexample :
    WellFormed (⟨16, 16, 0, 0, 0⟩, ([] : List Nat)) ∧
    (handlePacket (concatFrames [(⟨16, 16, 0, 0, 0⟩, ([] : List Nat))] ++
        (encodeFrame (⟨16, 16, 0, 0, 0⟩, ([] : List Nat))).take 0)).1 = [] ∧
    (handlePacket (concatFrames [(⟨16, 16, 0, 0, 0⟩, ([] : List Nat))] ++
        (encodeFrame (⟨16, 16, 0, 0, 0⟩, ([] : List Nat))).take 0)).2 ≠ [] := by
  decide

/-! ## Claim C2 -/

/-- C2 (amended): the resynchronisation behaviour of `_handle_packet`.
(1) The scanner looks at most 16 byte positions ahead for a valid header.
(2) On a buffer of at least 20 bytes containing no valid header at any
position, five consecutive single-byte skips exhaust the error budget and
the entire remaining buffer is discarded; the splitter never raises.
(3) For one corrupted byte inserted before a well-formed complete frame,
the frame is still recovered — provided it has a nonempty body
(`total_length >= 17`); a bare 16-byte frame is lost instead (see the
counterexample). -/
theorem C2_resync_bounded :
    (∀ (rest : List Nat) (so : Nat) (h : PacketHeader),
      findSync rest = some (so, h) → so < 16) ∧
    (∀ buf : List Nat, 20 ≤ buf.length →
      (∀ k, k < buf.length →
        ((readHeader (buf.drop k)).map headerOk).getD false = false) →
      handlePacket buf = ([], [])) ∧
    (∀ (g : Nat) (f : PacketHeader × List Nat), WellFormed f →
      17 ≤ f.1.packetLength → handlePacket (g :: encodeFrame f) = ([f], [])) := by
  refine ⟨?_, handlePacket_garbage, handlePacket_resync⟩
  intro rest so h hf
  have := (findSync_eq_some hf).1
  omega

/-- C2 witness: a concrete all-0xFF buffer is discarded whole, and a
17-byte frame behind one corrupted byte is recovered. -/
theorem C2_resync_bounded_witness :
    handlePacket (List.replicate 20 255) = ([], []) ∧
    handlePacket (7 :: encodeFrame (⟨17, 16, 0, 5, 0⟩, [65])) =
      ([(⟨17, 16, 0, 5, 0⟩, [65])], []) :=
  ⟨C2_resync_bounded.2.1 (List.replicate 20 255) (by decide) (by decide),
   C2_resync_bounded.2.2 7 (⟨17, 16, 0, 5, 0⟩, [65]) (by decide) (by decide)⟩

/-- C2 counterexample: one corrupted byte before a well-formed complete
16-byte frame.  The claim says the valid frame is still recovered; the
splitter recovers nothing (it skips two bytes and stalls on the 15
remaining ones). -/
theorem C2_counterexample :
    WellFormed (⟨16, 16, 0, 0, 0⟩, ([] : List Nat)) ∧
    (handlePacket (1 :: encodeFrame (⟨16, 16, 0, 0, 0⟩, ([] : List Nat)))).1 = [] := by
  decide

/-! ## Claim C4 -/

/-- C4 (amended): the nested re-split `_parse_messages` is NOT the same
splitter as `_handle_packet` — it walks headers sequentially with no
validity check, no resynchronisation and no partial-suffix retention (see
the counterexample).  The two agree on buffers that are exact
concatenations of complete well-formed frames whose final frame has a
nonempty body. -/
theorem C4_resplit_agrees (fs : List (PacketHeader × List Nat))
    (hwf : ∀ f ∈ fs, WellFormed f)
    (hlast : ∀ f0, fs.getLast? = some f0 → 17 ≤ f0.1.packetLength) :
    parseMessages (concatFrames fs) = (handlePacket (concatFrames fs)).1 ∧
    handlePacket (concatFrames fs) = (fs, []) := by
  have hconc := hpLoop_concat fs [] hwf (hpLoop_nil 0) ?_
  · have hhp : handlePacket (concatFrames fs) = (fs, []) := by
      rw [handlePacket]
      rw [List.append_nil] at hconc
      simp only [hconc]
      rfl
    refine ⟨?_, hhp⟩
    rw [hhp]
    have hcount := concatFrames_count_le fs hwf
    exact pmLoop_concat fs hwf _ (by omega)
  · intro f0 hf0
    have := hlast f0 hf0
    simp only [List.length_nil]
    omega

/-- C4 witness: the two splitters agree on a clean two-frame buffer. -/
theorem C4_resplit_agrees_witness :
    parseMessages (concatFrames [(⟨17, 16, 0, 5, 0⟩, [65]), (⟨20, 16, 2, 3, 1⟩, [9, 9, 9, 9])]) =
      (handlePacket (concatFrames [(⟨17, 16, 0, 5, 0⟩, [65]), (⟨20, 16, 2, 3, 1⟩, [9, 9, 9, 9])])).1 :=
  (C4_resplit_agrees [(⟨17, 16, 0, 5, 0⟩, [65]), (⟨20, 16, 2, 3, 1⟩, [9, 9, 9, 9])]
    (by decide)
    (by
      intro f0 h0
      simp only [List.getLast?_cons_cons, List.getLast?_singleton, Option.some.injEq] at h0
      rw [← h0]
      decide)).1

/-- C4 counterexample: on one corrupted byte followed by a well-formed
frame, `_handle_packet` resynchronises and extracts the true frame while
`_parse_messages` swallows a garbage header and extracts a different
sequence — so the re-split does not use the same splitter. -/
theorem C4_counterexample :
    parseMessages (255 :: encodeFrame (⟨17, 16, 0, 5, 0⟩, [65])) ≠
      (handlePacket (255 :: encodeFrame (⟨17, 16, 0, 5, 0⟩, [65]))).1 := by
  decide

/-! ## Claim C10 -/

/-- C10: header parsing is total on sufficient input.  For every byte
sequence of length at least 16, `PacketHeader.from_bytes` returns the
header whose five fields are the big-endian u32/u16/u16/u32/u32 decoding
of the first 16 bytes and never raises; it raises (`ValueError`) exactly
when the input is shorter than 16 bytes. -/
theorem C10_fromBytes_total :
    (∀ bs : List Nat, 16 ≤ bs.length →
      fromBytes bs = Except.ok
        ⟨u32 (bs.getD 0 0) (bs.getD 1 0) (bs.getD 2 0) (bs.getD 3 0),
         u16 (bs.getD 4 0) (bs.getD 5 0),
         u16 (bs.getD 6 0) (bs.getD 7 0),
         u32 (bs.getD 8 0) (bs.getD 9 0) (bs.getD 10 0) (bs.getD 11 0),
         u32 (bs.getD 12 0) (bs.getD 13 0) (bs.getD 14 0) (bs.getD 15 0)⟩) ∧
    (∀ bs : List Nat, bs.length < 16 → fromBytes bs = Except.error "data too short") := by
  constructor
  · intro bs h
    rw [fromBytes, readHeader, if_pos h]
  · intro bs h
    rw [fromBytes, readHeader_short h]

/-- C10 witness: evaluation at a 17-byte input and a 1-byte input. -/
theorem C10_fromBytes_total_witness :
    fromBytes [0, 0, 0, 17, 0, 16, 0, 2, 0, 0, 0, 5, 0, 0, 0, 9, 65] =
      Except.ok ⟨17, 16, 2, 5, 9⟩ ∧
    fromBytes [7] = Except.error "data too short" := by
  constructor
  · rw [C10_fromBytes_total.1 [0, 0, 0, 17, 0, 16, 0, 2, 0, 0, 0, 5, 0, 0, 0, 9, 65]
      (by decide)]
    rfl
  · exact C10_fromBytes_total.2 [7] (by decide)

/-! ## Lemmas about the lite record decoder -/

theorem readVarint_rest_le : ∀ (bs : List Nat) (shift value : Nat),
    (readVarint bs shift value).2.length ≤ bs.length := by
  intro bs
  induction bs with
  | nil => intro shift value; simp [readVarint]
  | cons b rest ih =>
    intro shift value
    simp only [readVarint]
    split
    · simp
    · split
      · simp
      · calc (readVarint rest (shift + 7) _).2.length
            ≤ rest.length := ih _ _
          _ ≤ (b :: rest).length := by simp

theorem skipVarint_le : ∀ bs : List Nat, (skipVarint bs).length ≤ bs.length := by
  intro bs
  induction bs with
  | nil => simp [skipVarint]
  | cons b rest ih =>
    simp only [skipVarint]
    split
    · simp
    · calc (skipVarint rest).length ≤ rest.length := ih
        _ ≤ (b :: rest).length := by simp

theorem puiLoopF_congr : ∀ (f1 f2 : Nat) (bs : List Nat) (acc : UserInfoFields),
    bs.length < f1 → bs.length < f2 → puiLoopF f1 bs acc = puiLoopF f2 bs acc := by
  intro f1
  induction f1 with
  | zero => intro f2 bs acc h1; omega
  | succ f ih =>
    intro f2 bs acc h1 h2
    cases f2 with
    | zero => omega
    | succ g =>
      cases bs with
      | nil => rfl
      | cons b rest =>
        simp only [puiLoopF]
        have hrv := readVarint_rest_le rest 0 0
        have hsk := skipVarint_le rest
        simp only [List.length_cons] at h1 h2
        by_cases h0 : b % 8 = 0
        · rw [if_pos h0, if_pos h0]
          exact ih g _ _ (by omega) (by omega)
        · rw [if_neg h0, if_neg h0]
          by_cases h2w : b % 8 = 2
          · rw [if_pos h2w, if_pos h2w]
            by_cases hc : (readVarint rest 0 0).1 ≤ (readVarint rest 0 0).2.length
            · rw [if_pos hc, if_pos hc]
              refine ih g _ _ ?_ ?_ <;> simp only [List.length_drop] <;> omega
            · rw [if_neg hc, if_neg hc]
          · rw [if_neg h2w, if_neg h2w]
            by_cases h5 : b % 8 = 5
            · rw [if_pos h5, if_pos h5]
              refine ih g _ _ ?_ ?_ <;> simp only [List.length_drop] <;> omega
            · rw [if_neg h5, if_neg h5]

theorem walkSimpleF_congr : ∀ (f1 f2 : Nat) (bs : List Nat) (acc : SimpleFields),
    bs.length < f1 → bs.length < f2 → walkSimpleF f1 bs acc = walkSimpleF f2 bs acc := by
  intro f1
  induction f1 with
  | zero => intro f2 bs acc h1; omega
  | succ f ih =>
    intro f2 bs acc h1 h2
    cases f2 with
    | zero => omega
    | succ g =>
      cases bs with
      | nil => rfl
      | cons b rest =>
        simp only [walkSimpleF]
        have hrv := readVarint_rest_le rest 0 0
        simp only [List.length_cons] at h1 h2
        by_cases h0 : b % 8 = 0
        · rw [if_pos h0, if_pos h0]
          exact ih g _ _ (by omega) (by omega)
        · rw [if_neg h0, if_neg h0]
          by_cases h2w : b % 8 = 2
          · rw [if_pos h2w, if_pos h2w]
            by_cases hc : (readVarint rest 0 0).1 ≤ (readVarint rest 0 0).2.length
            · rw [if_pos hc, if_pos hc]
              refine ih g _ _ ?_ ?_ <;> simp only [List.length_drop] <;> omega
            · rw [if_neg hc, if_neg hc]
          · rw [if_neg h2w, if_neg h2w]
            by_cases h5 : b % 8 = 5
            · rw [if_pos h5, if_pos h5]
              refine ih g _ _ ?_ ?_ <;> simp only [List.length_drop] <;> omega
            · rw [if_neg h5, if_neg h5]

/-- One unfolding of the `_parse_simple` walk, phrased over `walkSimple`
itself. -/
theorem walkSimple_eq (b : Nat) (rest : List Nat) (acc : SimpleFields) :
    walkSimple (b :: rest) acc =
      if b % 8 = 0 then
        let r := readVarint rest 0 0
        let acc2 :=
          if b / 8 = 1 then { acc with uid := some r.1 }
          else if b / 8 = 5 then { acc with msgType := some r.1 }
          else if b / 8 = 6 then { acc with timestamp := some r.1 }
          else acc
        walkSimple r.2 acc2
      else if b % 8 = 2 then
        let r := readVarint rest 0 0
        if r.1 ≤ r.2.length then
          let d := r.2.take r.1
          let acc2 :=
            if b / 8 = 3 then mergeUinfo acc (parseUserInfo d)
            else if utf8Valid d then
              if b / 8 = 2 then { acc with uname := some d }
              else if b / 8 = 4 then { acc with face := some d }
              else acc
            else acc
          walkSimple (r.2.drop r.1) acc2
        else acc
      else if b % 8 = 5 then walkSimple (rest.drop 4) acc
      else acc := by
  rw [walkSimple]
  rw [walkSimpleF]
  have hrv := readVarint_rest_le rest 0 0
  by_cases h0 : b % 8 = 0
  · rw [if_pos h0, if_pos h0]
    apply walkSimpleF_congr
    · simp only [List.length_cons]; omega
    · omega
  · rw [if_neg h0, if_neg h0]
    by_cases h2w : b % 8 = 2
    · rw [if_pos h2w, if_pos h2w]
      by_cases hc : (readVarint rest 0 0).1 ≤ (readVarint rest 0 0).2.length
      · rw [if_pos hc, if_pos hc]
        apply walkSimpleF_congr
        · simp only [List.length_drop, List.length_cons]; omega
        · simp only [List.length_drop]; omega
      · rw [if_neg hc, if_neg hc]
    · rw [if_neg h2w, if_neg h2w]
      by_cases h5 : b % 8 = 5
      · rw [if_pos h5, if_pos h5]
        apply walkSimpleF_congr
        · simp only [List.length_drop, List.length_cons]; omega
        · simp only [List.length_drop]; omega
      · rw [if_neg h5, if_neg h5]

theorem land_127 (x : Nat) : x &&& 127 = x % 128 := by
  have h := Nat.and_pow_two_sub_one_eq_mod x 7
  norm_num at h
  exact h

theorem land_128_eq_zero {x : Nat} (h : x < 128) : x &&& 128 = 0 := by
  have h1 : (128 : Nat) = 2 ^ 7 := by norm_num
  rw [h1, Nat.and_two_pow]
  have ht : x.testBit 7 = false := Nat.testBit_eq_false_of_lt (by rw [← h1]; omega)
  simp [ht]

theorem land_128_ne_zero {x : Nat} (hlo : 128 ≤ x) (hhi : x < 256) :
    x &&& 128 ≠ 0 := by
  have h1 : (128 : Nat) = 2 ^ 7 := by norm_num
  rw [h1, Nat.and_two_pow]
  have ht : x.testBit 7 = true := by
    rw [Nat.testBit_to_div_mod]
    simp only [decide_eq_true_eq]
    norm_num
    omega
  simp [ht]

theorem lor_shift_add : ∀ (n a b : Nat), a < 2 ^ n → a ||| (b <<< n) = a + b <<< n := by
  intro n
  induction n with
  | zero =>
    intro a b h
    have ha : a = 0 := by omega
    subst ha
    simp [Nat.zero_or]
  | succ n ih =>
    intro a b h
    have hd : Nat.bit a.bodd a.div2 = a := Nat.bit_decomp a
    have hb : b <<< (n + 1) = Nat.bit false (b <<< n) := by
      simp [Nat.shiftLeft_eq, Nat.bit, pow_succ]
      ring
    have hdiv : a.div2 < 2 ^ n := by
      have h2 : a.div2 = a / 2 := Nat.div2_val a
      rw [pow_succ] at h
      omega
    calc a ||| (b <<< (n + 1))
        = Nat.bit a.bodd a.div2 ||| Nat.bit false (b <<< n) := by rw [hd, hb]
      _ = Nat.bit (a.bodd || false) (a.div2 ||| (b <<< n)) := Nat.lor_bit ..
      _ = Nat.bit a.bodd (a.div2 + b <<< n) := by rw [Bool.or_false, ih a.div2 b hdiv]
      _ = a + b <<< (n + 1) := by
          rw [hb]
          have h2 : a.div2 = a / 2 := Nat.div2_val a
          have hbo := Nat.bodd_add_div2 a
          cases hob : a.bodd <;> rw [hob] at hbo <;> simp at hbo <;>
            simp [Nat.bit] <;> omega

theorem varintEnc_length : ∀ (k v : Nat), v < 128 ^ k → (varintEnc v).length ≤ k + 1 := by
  intro k
  induction k with
  | zero =>
    intro v hv
    have : v = 0 := by simpa using hv
    subst this
    rw [varintEnc]
    simp
  | succ k ih =>
    intro v hv
    rw [varintEnc]
    by_cases h : v < 128
    · rw [if_pos h]; simp
    · rw [if_neg h]
      have hdiv : v / 128 < 128 ^ k := by
        rw [Nat.div_lt_iff_lt_mul (by omega)]
        calc v < 128 ^ (k + 1) := hv
          _ = 128 ^ k * 128 := by rw [pow_succ]
      have := ih (v / 128) hdiv
      simp only [List.length_cons]
      omega

/-- The decoder's varint loop inverts the encoding, as long as the
accumulated shift stays at or below 63 throughout. -/
theorem readVarint_enc : ∀ (v : Nat) (rest : List Nat) (shift value : Nat),
    shift + 7 * (varintEnc v).length ≤ 70 →
    readVarint (varintEnc v ++ rest) shift value = (value ||| (v <<< shift), rest) := by
  intro v
  induction v using Nat.strong_induction_on with
  | _ v ih =>
    intro rest shift value hlen
    rw [varintEnc] at hlen ⊢
    by_cases h : v < 128
    · rw [if_pos h] at hlen ⊢
      simp only [List.cons_append, List.nil_append, readVarint]
      rw [land_127, Nat.mod_eq_of_lt h, if_pos (land_128_eq_zero h)]
      simp
    · rw [if_neg h] at hlen ⊢
      simp only [List.cons_append, readVarint, List.length_cons] at hlen ⊢
      have hb_ne := @land_128_ne_zero (v % 128 + 128) (by omega) (by omega)
      rw [if_neg hb_ne]
      have hlen2 : 1 ≤ (varintEnc (v / 128)).length := by
        rw [varintEnc]
        split <;> simp
      rw [if_neg (by omega)]
      rw [show (varintEnc (v / 128)).append rest = varintEnc (v / 128) ++ rest from rfl]
      rw [ih (v / 128) (Nat.div_lt_self (by omega) (by omega)) rest (shift + 7) _
        (by omega)]
      congr 1
      rw [land_127]
      rw [Nat.lor_assoc]
      congr 1
      have hm : (v % 128 + 128) % 128 = v % 128 := by omega
      rw [hm]
      have hsmall : (v % 128) <<< shift < 2 ^ (shift + 7) := by
        rw [Nat.shiftLeft_eq, pow_add]
        have h7 : v % 128 < 2 ^ 7 := by norm_num; omega
        have hp : 0 < 2 ^ shift := by positivity
        calc v % 128 * 2 ^ shift < 2 ^ 7 * 2 ^ shift := (Nat.mul_lt_mul_right hp).mpr h7
          _ = 2 ^ shift * 2 ^ 7 := by ring
      rw [lor_shift_add _ _ _ hsmall]
      rw [Nat.shiftLeft_eq, Nat.shiftLeft_eq, Nat.shiftLeft_eq, pow_add]
      have hvd : v % 128 + 128 * (v / 128) = v := Nat.mod_add_div v 128
      have h27 : (2 : Nat) ^ 7 = 128 := by norm_num
      calc v % 128 * 2 ^ shift + v / 128 * (2 ^ shift * 2 ^ 7)
          = (v % 128 + 128 * (v / 128)) * 2 ^ shift := by rw [h27]; ring
        _ = v * 2 ^ shift := by rw [hvd]

/-! ## Claim C3 -/

/-- C3 (amended): decompression dispatch.  Version 0 yields the body
unchanged; version 2 yields zlib-inflate; version 3 yields brotli, with
zlib used only when the brotli module is unavailable (`ImportError`) —
not on a brotli decompression failure; any other version yields the body
unchanged; on any decompression error the frame is dropped without
raising (nothing is parsed), with no fallback to the next-lower
compression scheme. -/
theorem C3_decompress_dispatch
    (zlibD : List Nat → Option (List Nat))
    (brotliD : Option (List Nat → Option (List Nat))) (body : List Nat) :
    decompressDispatch zlibD brotliD 0 body = some body ∧
    decompressDispatch zlibD brotliD 2 body = zlibD body ∧
    decompressDispatch zlibD none 3 body = zlibD body ∧
    (∀ bd, brotliD = some bd →
      decompressDispatch zlibD brotliD 3 body = bd body) ∧
    (∀ pv, pv ≠ 0 → pv ≠ 2 → pv ≠ 3 →
      decompressDispatch zlibD brotliD pv body = some body) ∧
    (∀ pv, decompressDispatch zlibD brotliD pv body = none →
      handleMessage zlibD brotliD pv body = []) := by
  refine ⟨rfl, rfl, rfl, ?_, ?_, ?_⟩
  · intro bd hbd
    rw [hbd]
    rfl
  · intro pv h0 h2 h3
    unfold decompressDispatch
    rw [if_neg h0, if_neg h2, if_neg h3]
  · intro pv hnone
    rw [handleMessage, hnone]

/-- C3 witness: concrete oracles exercising the version-3 branches and
the drop-on-error behaviour. -/
theorem C3_decompress_dispatch_witness :
    decompressDispatch (fun _ => some [1]) (some fun _ => some [2]) 3 [9] = some [2] ∧
    decompressDispatch (fun _ => some [1]) none 3 [9] = some [1] ∧
    decompressDispatch (fun _ => none) none 7 [9] = some [9] ∧
    handleMessage (fun _ => none) none 2 [9] = [] := by
  refine ⟨?_, ?_, ?_, ?_⟩
  · exact (C3_decompress_dispatch (fun _ => some [1]) (some fun _ => some [2]) [9]).2.2.2.1
      (fun _ => some [2]) rfl
  · exact (C3_decompress_dispatch (fun _ => some [1]) none [9]).2.2.1
  · exact (C3_decompress_dispatch (fun _ => none) none [9]).2.2.2.2.1 7
      (by decide) (by decide) (by decide)
  · exact (C3_decompress_dispatch (fun _ => none) none [9]).2.2.2.2.2 2 rfl

/-- C3 counterexample: protocol version 3 with the brotli module present
but failing.  The claim says the codec falls back to the next-lower
compression scheme (zlib-inflate, which here succeeds on the same body);
the code instead lets the error reach the outer handler and drops the
frame — the zlib fallback is attempted only on `ImportError`. -/
theorem C3_counterexample :
    decompressDispatch (fun _ => some [1]) (some fun _ => none) 3 [9] = none ∧
    (fun (_ : List Nat) => some [1] : List Nat → Option (List Nat)) [9] = some [1] ∧
    handleMessage (fun _ => some [1]) (some fun _ => none) 3 [9] = [] := by
  exact ⟨rfl, rfl, rfl⟩

/-! ## Claim C5 -/

/-- C5 (amended): the lite record decoder is total (the suffix walk
`walkSimple` is a total function — every index access in the source is
guarded — so `_parse_simple` never raises) and returns the default-filled
structure `{uid=0, empty name, subtype=1, timestamp=0}` when nothing is
extracted.  Known fields are extracted: a varint uid (field 1), a
length-delimited UTF-8 uname (field 2), and the nested user-info record
(field 3) merged via `mergeUinfo`.  Unknown field numbers of varint
fields are skipped; a truncated length-delimited span stops the walk with
the fields collected so far.  An unrecognised wire type (anything other
than 0, 2, 5) ENDS the walk rather than being skipped — the corrected
part of the claim (see the counterexample). -/
theorem C5_decoder_total :
    decodeSimple [] = ⟨0, [], 1, 0, none⟩ ∧
    (∀ (b : Nat) (rest : List Nat) (acc : SimpleFields),
      b % 8 = 0 → b / 8 ≠ 1 → b / 8 ≠ 5 → b / 8 ≠ 6 →
      walkSimple (b :: rest) acc = walkSimple (readVarint rest 0 0).2 acc) ∧
    (∀ (v : Nat) (rest : List Nat) (acc : SimpleFields), v < 2 ^ 63 →
      walkSimple (8 :: (varintEnc v ++ rest)) acc =
        walkSimple rest { acc with uid := some v }) ∧
    (∀ (d rest : List Nat) (acc : SimpleFields),
      utf8Valid d = true → d.length < 128 →
      walkSimple (18 :: d.length :: (d ++ rest)) acc =
        walkSimple rest { acc with uname := some d }) ∧
    (∀ (d rest : List Nat) (acc : SimpleFields), d.length < 128 →
      walkSimple (26 :: d.length :: (d ++ rest)) acc =
        walkSimple rest (mergeUinfo acc (parseUserInfo d))) ∧
    (∀ (b : Nat) (rest : List Nat) (acc : SimpleFields),
      b % 8 = 2 → (readVarint rest 0 0).2.length < (readVarint rest 0 0).1 →
      walkSimple (b :: rest) acc = acc) ∧
    (∀ (b : Nat) (rest : List Nat) (acc : SimpleFields),
      b % 8 ≠ 0 → b % 8 ≠ 2 → b % 8 ≠ 5 →
      walkSimple (b :: rest) acc = acc) := by
  refine ⟨rfl, ?_, ?_, ?_, ?_, ?_, ?_⟩
  · intro b rest acc h0 hf1 hf5 hf6
    rw [walkSimple_eq, if_pos h0]
    simp only [if_neg hf1, if_neg hf5, if_neg hf6]
  · intro v rest acc hv
    have hlen : (varintEnc v).length ≤ 10 := by
      have h63 : (128 : Nat) ^ 9 = 2 ^ 63 := by norm_num
      have := varintEnc_length 9 v (by rw [h63]; exact hv)
      omega
    have hr : readVarint (varintEnc v ++ rest) 0 0 = (v, rest) := by
      have h := readVarint_enc v rest 0 0 (by omega)
      simpa using h
    rw [walkSimple_eq]
    simp only [hr]
    norm_num
  · intro d rest acc hutf hlen
    have hr : readVarint (d.length :: (d ++ rest)) 0 0 = (d.length, d ++ rest) := by
      simp only [readVarint]
      rw [if_pos (land_128_eq_zero hlen), land_127, Nat.mod_eq_of_lt hlen]
      simp
    rw [walkSimple_eq]
    simp only [hr]
    norm_num [List.take_left, List.drop_left, hutf]
  · intro d rest acc hlen
    have hr : readVarint (d.length :: (d ++ rest)) 0 0 = (d.length, d ++ rest) := by
      simp only [readVarint]
      rw [if_pos (land_128_eq_zero hlen), land_127, Nat.mod_eq_of_lt hlen]
      simp
    rw [walkSimple_eq]
    simp only [hr]
    norm_num [List.take_left, List.drop_left]
  · intro b rest acc h2w htr
    rw [walkSimple_eq, if_neg (by omega), if_pos h2w, if_neg (by omega)]
  · intro b rest acc h0 h2w h5
    rw [walkSimple_eq, if_neg h0, if_neg h2w, if_neg h5]

/-- C5 witness: the decoder at concrete inputs — empty input gives all
defaults, a varint uid of 300 is extracted, a 2-byte UTF-8 uname is
extracted, and a wire-type-1 tag stops the walk. -/
theorem C5_decoder_total_witness :
    decodeSimple [] = ⟨0, [], 1, 0, none⟩ ∧
    walkSimple (8 :: (varintEnc 300 ++ [40, 7])) ⟨none, none, none, none, none⟩ =
      walkSimple [40, 7] ⟨some 300, none, none, none, none⟩ ∧
    walkSimple (18 :: [65, 66].length :: ([65, 66] ++ [])) ⟨none, none, none, none, none⟩ =
      walkSimple [] ⟨none, some [65, 66], none, none, none⟩ ∧
    walkSimple (25 :: [8, 42]) ⟨none, none, none, none, none⟩ =
      ⟨none, none, none, none, none⟩ :=
  ⟨C5_decoder_total.1,
   C5_decoder_total.2.2.1 300 [40, 7] ⟨none, none, none, none, none⟩ (by decide),
   C5_decoder_total.2.2.2.1 [65, 66] [] ⟨none, none, none, none, none⟩
     (by decide) (by decide),
   C5_decoder_total.2.2.2.2.2.2 25 [8, 42] ⟨none, none, none, none, none⟩
     (by decide) (by decide) (by decide)⟩

/-- C5 counterexample: a field with the (standard protobuf) 64-bit wire
type 1 followed by a varint uid field.  The claim says unknown wire types
are skipped without error, which would extract `uid = 42`; the decoder
stops at the wire-type-1 tag and returns all defaults. -/
theorem C5_counterexample :
    decodeSimple ([25, 0, 0, 0, 0, 0, 0, 0, 0] ++ [8, 42]) = ⟨0, [], 1, 0, none⟩ ∧
    decodeSimple [8, 42] = ⟨42, [], 1, 0, none⟩ ∧
    decodeSimple ([25, 0, 0, 0, 0, 0, 0, 0, 0] ++ [8, 42]) ≠ decodeSimple [8, 42] := by
  decide

/-! ## Reconnection loop `_reconnect_loop` (danmaku.py 1158-1207)

`connect()` returns `True`/`False` (a raised exception is caught by the
loop's `except` and behaves like a `False` return, the attempt having
already been counted), so one run is determined by the boolean outcomes
of the successive `connect()` calls.  `running` starts out `False` (the
loop runs only after a transport failure) and is set only by a successful
`connect()`, which also ends the loop; the trailing
`if not self.running: ... on_disconnect(...)` therefore fires exactly
when every attempt failed. -/

structure ReconnectTrace where
  /-- Seconds slept before each `connect()` call, in order. -/
  sleeps : List Nat
  /-- Number of `connect()` calls made. -/
  connectCalls : Nat
  /-- `reconnect_attempts` when the loop ends. -/
  finalAttempts : Nat
  /-- Whether the terminal give-up notification (`on_disconnect`) fired. -/
  gaveUp : Bool
deriving DecidableEq, Repr

/-- The `while self.reconnect_attempts < self.max_reconnect_attempts and
not self.running` loop: increment the counter, sleep
`min(2 ** attempts, 60)`, call `connect()`; on success reset the counter
to 0 and return; on failure continue. -/
def rlGo (outcomes : List Bool) (maxA attempts : Nat) : ReconnectTrace :=
  if attempts < maxA then
    let a2 := attempts + 1
    let w := min (2 ^ a2) 60
    if outcomes.headD false then
      ⟨[w], 1, 0, false⟩
    else
      let r := rlGo outcomes.tail maxA a2
      ⟨w :: r.sleeps, r.connectCalls + 1, r.finalAttempts, r.gaveUp⟩
  else ⟨[], 0, attempts, true⟩
termination_by maxA - attempts
decreasing_by omega

/-- `_reconnect_loop`: a no-op when `auto_reconnect` is off, otherwise
the retry loop starting from `reconnect_attempts = 0`. -/
def reconnectLoop (autoReconnect : Bool) (maxA : Nat) (outcomes : List Bool) :
    ReconnectTrace :=
  if autoReconnect then rlGo outcomes maxA 0 else ⟨[], 0, 0, false⟩

/-! ## Event bus `PluginManager.process_event` (plugin_system.py 400-440)

A plugin handler may return a new payload, return `None` (payload kept),
or raise (`Except.error`, the error is printed and the payload kept). -/

def stepPlugin {α : Type} (f : α → Except Unit (Option α)) (d : α) : α :=
  match f d with
  | .ok (some p) => p
  | .ok none => d
  | .error _ => d

/-- `process_event` over the registered plugins in registration order,
skipping disabled ones; returns the final payload and the trace of
payloads passed to each enabled handler. -/
def processEvent {α : Type} :
    List (Bool × (α → Except Unit (Option α))) → α → α × List α
  | [], d => (d, [])
  | (en, f) :: rest, d =>
    if en then
      let d2 := stepPlugin f d
      let r := processEvent rest d2
      (r.1, d :: r.2)
    else processEvent rest d

/-! ## Username cleaning (`_clean_username`, danmaku.py 1039-1088, and
`_trigger_user_enter`, 1090-1124)

Strings are modelled as `List Char`.  `str.split()` / `strip()` /
`isspace()` use Python's whitespace set (restricted to its ASCII
members, the only ones relevant here). -/

def isWS (c : Char) : Bool :=
  c = ' ' || c = '\t' || c = '\n' || c = '\x0d' || c = '\x0b' || c = '\x0c'

/-- The filter at line 1045: keep printable characters and tab/LF/CR. -/
def keepChar (c : Char) : Bool :=
  32 ≤ c.toNat || c = '\t' || c = '\n' || c = '\x0d'

/-- `haystack.find(needle)`: index of the first occurrence, `None` for
Python's `-1`. -/
def findSub (pat : List Char) : List Char → Option Nat
  | [] => if pat.isPrefixOf ([] : List Char) then some 0 else none
  | c :: rest =>
    if pat.isPrefixOf (c :: rest) then some 0
    else (findSub pat rest).map (· + 1)

def lstripWS (l : List Char) : List Char := l.dropWhile isWS

def rstripWS (l : List Char) : List Char := (l.reverse.dropWhile isWS).reverse

def stripWS (l : List Char) : List Char := rstripWS (lstripWS l)

/-- `str.split()`: split on whitespace runs, dropping empty pieces.  The
accumulator holds the current word reversed. -/
def splitWSAux : List Char → List Char → List (List Char)
  | [], w => if w.isEmpty then [] else [w.reverse]
  | c :: rest, w =>
    if isWS c then
      if w.isEmpty then splitWSAux rest [] else w.reverse :: splitWSAux rest []
    else splitWSAux rest (c :: w)

def splitWS (l : List Char) : List (List Char) := splitWSAux l []

/-- The image-extension scan at lines 1053-1058: the first extension in
list order found at or after `start`; returns the index one past its
end. -/
def findExt (cleaned : List Char) (start : Nat) : Option Nat :=
  [['.', 'j', 'p', 'g'], ['.', 'p', 'n', 'g'], ['.', 'j', 'p', 'e', 'g'],
      ['.', 'g', 'i', 'f'], ['.', 'w', 'e', 'b', 'p']].findSome? fun ext =>
    (findSub ext (cleaned.drop start)).map fun p => start + p + ext.length

def httpPat : List Char := ['h', 't', 't', 'p']

def bfsPat : List Char := ['b', 'f', 's', '/', 'f', 'a', 'c', 'e', '/']

/-- The avatar-URL removal block at lines 1048-1072. -/
def removeUrl (cleaned : List Char) : List Char :=
  if (findSub httpPat cleaned).isSome && (findSub bfsPat cleaned).isSome then
    match findSub httpPat cleaned with
    | some httpStart =>
      match findExt cleaned httpStart with
      | some urlEnd =>
        if (lstripWS (cleaned.drop urlEnd)).isEmpty then rstripWS (cleaned.take httpStart)
        else rstripWS (cleaned.take httpStart) ++ ' ' :: lstripWS (cleaned.drop urlEnd)
      | none =>
        match findSub [' '] (cleaned.drop httpStart) with
        | some p => rstripWS (cleaned.take httpStart) ++ cleaned.drop (httpStart + p)
        | none => rstripWS (cleaned.take httpStart)
    | none => cleaned
  else cleaned

/-- The placeholder `"用户"` substituted at line 1086. -/
def defaultUsername : List Char := ['用', '户']

/-- `' '.join(pieces)`. -/
def joinSpace : List (List Char) → List Char
  | [] => []
  | [p] => p
  | p :: q :: rest => p ++ ' ' :: joinSpace (q :: rest)

/-- Whitespace normalisation then truncation (lines 1074-1082). -/
def normalizeWS (cleaned2 : List Char) : List Char :=
  if 20 < (stripWS (joinSpace (splitWS cleaned2))).length then
    rstripWS ((stripWS (joinSpace (splitWS cleaned2))).take 20)
  else stripWS (joinSpace (splitWS cleaned2))

def cleanUsername (username : List Char) : List Char :=
  if username.isEmpty then username
  else if (normalizeWS (removeUrl (username.filter keepChar))).all isWS then
    defaultUsername
  else normalizeWS (removeUrl (username.filter keepChar))

/-- `_trigger_user_enter`: clean the name, dedupe on the `(uid, name)`
key (the source's `f"{uid}:{clean_name}"`), and surface the event with
the cleaned name as the user's `uname`. -/
def triggerUserEnter (userName : List Char) (uid : Nat)
    (history : List (Nat × List Char)) : Option (Nat × List Char) :=
  if (uid, cleanUsername userName) ∈ history then none
  else some (uid, cleanUsername userName)

/-! ## WBI request signer (`core/wbi_sign.py`)

Keys, parameter names and values are `List Char`; `hashlib.md5` is an
external C routine, modelled as the oracle `md5hex`. -/

/-- `MIXIN_KEY_ENC_TAB`. -/
def mixinTab : List Nat :=
  [46, 47, 18, 2, 53, 8, 23, 32, 15, 50, 10, 31, 58, 3, 45, 35, 27, 43, 5, 49,
   33, 9, 42, 19, 29, 28, 14, 39, 12, 38, 41, 13, 37, 48, 7, 16, 24, 55, 40,
   61, 26, 17, 0, 1, 60, 51, 30, 4, 22, 25, 54, 21, 56, 59, 6, 63, 57, 62, 11,
   36, 20, 34, 44, 52]

/-- `_get_mixin_key`: `reduce(lambda s, i: s + orig_key[i], TAB, "")[:32]`.
`orig_key[i]` raises `IndexError` when the key is shorter than the table
needs; `none` models that raise. -/
def getMixinKey (origKey : List Char) : Option (List Char) :=
  (mixinTab.mapM fun i => origKey.get? i).map (List.take 32)

/-- The same permutation, total, for keys long enough (the spec's
"permute the concatenation through the fixed 64-entry table and truncate
to 32 characters"). -/
def specMixin (origKey : List Char) : List Char :=
  (mixinTab.map fun i => origKey.getD i ' ').take 32

/-- Python dict assignment `params[k] = v`: replace in place if the key
exists, append otherwise. -/
def setKey (k v : List Char) :
    List (List Char × List Char) → List (List Char × List Char)
  | [] => [(k, v)]
  | kv :: rest => if kv.1 = k then (k, v) :: rest else kv :: setKey k v rest

/-- Lexicographic comparison of keys by code point, Python's `<=` on
strings. -/
def keyLe : List Char → List Char → Bool
  | [], _ => true
  | _ :: _, [] => false
  | a :: as, b :: bs =>
    if a.toNat < b.toNat then true
    else if b.toNat < a.toNat then false
    else keyLe as bs

def insertByKey (kv : List Char × List Char) :
    List (List Char × List Char) → List (List Char × List Char)
  | [] => [kv]
  | kv2 :: rest =>
    if keyLe kv.1 kv2.1 then kv :: kv2 :: rest else kv2 :: insertByKey kv rest

/-- `dict(sorted(params.items()))`: sort by key.  (Stable; with the
unique keys of a dict any sort produces this order.) -/
def sortByKey : List (List Char × List Char) → List (List Char × List Char)
  | [] => []
  | kv :: rest => insertByKey kv (sortByKey rest)

/-- `"".join(filter(lambda chr: chr not in "!()*", str(v)))`. -/
def stripBang (v : List Char) : List Char :=
  v.filter fun c => !(c = '!' || c = '(' || c = ')' || c = '*')

def stripKV (kv : List Char × List Char) : List Char × List Char :=
  (kv.1, stripBang kv.2)

/-- UTF-8 encoding of one character. -/
def utf8Encode (c : Char) : List Nat :=
  let n := c.toNat
  if n < 128 then [n]
  else if n < 2048 then [192 ||| (n >>> 6), 128 ||| (n &&& 63)]
  else if n < 65536 then
    [224 ||| (n >>> 12), 128 ||| ((n >>> 6) &&& 63), 128 ||| (n &&& 63)]
  else
    [240 ||| (n >>> 18), 128 ||| ((n >>> 12) &&& 63),
     128 ||| ((n >>> 6) &&& 63), 128 ||| (n &&& 63)]

def hexDigit (n : Nat) : Char :=
  if n < 10 then Char.ofNat (48 + n) else Char.ofNat (55 + n)

/-- `urllib.parse.quote_plus`'s always-safe bytes: letters, digits and
`_ . - ~`. -/
def safeByte (b : Nat) : Bool :=
  (48 ≤ b && b ≤ 57) || (65 ≤ b && b ≤ 90) || (97 ≤ b && b ≤ 122) ||
    b = 95 || b = 46 || b = 45 || b = 126

def quoteByte (b : Nat) : List Char :=
  if safeByte b then [Char.ofNat b]
  else if b = 32 then ['+']
  else ['%', hexDigit (b / 16), hexDigit (b % 16)]

/-- `urllib.parse.quote_plus` on one string: UTF-8 encode, then quote
byte-wise with space as `+`. -/
def quotePlus (s : List Char) : List Char :=
  ((s.map utf8Encode).flatten.map quoteByte).flatten

def joinAmp : List (List Char) → List Char
  | [] => []
  | [p] => p
  | p :: q :: rest => p ++ '&' :: joinAmp (q :: rest)

/-- `urllib.parse.urlencode`: `k=v` pairs joined by `&`, both sides
quoted. -/
def urlencode (params : List (List Char × List Char)) : List Char :=
  joinAmp (params.map fun kv => quotePlus kv.1 ++ '=' :: quotePlus kv.2)

def wtsKey : List Char := ['w', 't', 's']

def wridKey : List Char := ['w', '_', 'r', 'i', 'd']

/-- `sign_params`: fetch keys (callers pass them in), derive the mixin
key, inject `wts` (the decimal rendering of the current timestamp), sort
by key, strip `!()*` from every value, urlencode, and store the hex MD5
of query + mixin key under `w_rid`.  `none` models the `IndexError` on
keys too short for the table. -/
def signParams (md5hex : List Char → List Char) (imgKey subKey : List Char)
    (params : List (List Char × List Char)) (ts : List Char) :
    Option (List (List Char × List Char)) :=
  match getMixinKey (imgKey ++ subKey) with
  | none => none
  | some mixinKey =>
    some (setKey wridKey
      (md5hex (urlencode ((sortByKey (setKey wtsKey ts params)).map stripKV) ++ mixinKey))
      ((sortByKey (setKey wtsKey ts params)).map stripKV))

/-! ## Lemmas about the signer -/

theorem mapM_get?_eq (k : List Char) : ∀ (tab : List Nat),
    (∀ i ∈ tab, i < k.length) →
    (tab.mapM fun i => k.get? i) = some (tab.map fun i => k.getD i ' ') := by
  intro tab
  induction tab with
  | nil => intro h; rfl
  | cons i rest ih =>
    intro h
    have hi : i < k.length := h i (by simp)
    have hgi : k.get? i = some (k.getD i ' ') := by
      cases hg : k.get? i with
      | none =>
        rw [List.get?_eq_none] at hg
        omega
      | some a =>
        rw [List.getD_eq_getElem?_getD, List.get?_eq_getElem?] at *
        rw [hg]
        rfl
    rw [List.mapM_cons, hgi, ih (fun j hj => h j (List.mem_cons_of_mem _ hj))]
    rfl

theorem insertByKey_map_strip (kv : List Char × List Char) :
    ∀ l : List (List Char × List Char),
    insertByKey (stripKV kv) (l.map stripKV) = (insertByKey kv l).map stripKV := by
  intro l
  induction l with
  | nil => rfl
  | cons kv2 rest ih =>
    simp only [List.map_cons, insertByKey]
    have h1 : (stripKV kv).1 = kv.1 := rfl
    have h2 : (stripKV kv2).1 = kv2.1 := rfl
    rw [h1, h2]
    split
    · rfl
    · rw [List.map_cons, ih]

theorem sortByKey_map_strip : ∀ l : List (List Char × List Char),
    sortByKey (l.map stripKV) = (sortByKey l).map stripKV := by
  intro l
  induction l with
  | nil => rfl
  | cons kv rest ih =>
    simp only [List.map_cons, sortByKey]
    rw [ih, insertByKey_map_strip]

/-! ## Claim C8 -/

/-- C8: WBI signing.  For every pair of key strings long enough for the
64-entry table (all indices up to 63 are read, so `img_key + sub_key`
must have at least 64 characters — real keys are 32+32), the mixin key is
the first 32 characters of the table permutation of `img_key + sub_key`;
and the signature stored under `w_rid` is the hex MD5 digest of the
urlencoding of the parameters — with the injected `wts` timestamp, the
characters `! ( ) *` stripped from every value, sorted by key (stripping
touches only values, so stripping before or after sorting is proved
equivalent) — with the mixin key appended. -/
theorem C8_wbi_signature (md5hex : List Char → List Char)
    (imgKey subKey : List Char) (params : List (List Char × List Char))
    (ts : List Char) (hlen : 64 ≤ (imgKey ++ subKey).length) :
    getMixinKey (imgKey ++ subKey) = some (specMixin (imgKey ++ subKey)) ∧
    signParams md5hex imgKey subKey params ts =
      some (setKey wridKey
        (md5hex (urlencode (sortByKey ((setKey wtsKey ts params).map stripKV)) ++
          specMixin (imgKey ++ subKey)))
        (sortByKey ((setKey wtsKey ts params).map stripKV))) := by
  have htab64 : ∀ i ∈ mixinTab, i < 64 := by decide
  have htab : ∀ i ∈ mixinTab, i < (imgKey ++ subKey).length := by
    intro i hi
    have := htab64 i hi
    omega
  have hmk : getMixinKey (imgKey ++ subKey) = some (specMixin (imgKey ++ subKey)) := by
    rw [getMixinKey, mapM_get?_eq _ _ htab]
    rfl
  refine ⟨hmk, ?_⟩
  rw [signParams, hmk]
  rw [sortByKey_map_strip]

/-- C8 witness: concrete 32+32-character keys, one parameter whose value
contains a stripped character, a fixed timestamp, and an identity hash
oracle. -/
theorem C8_wbi_signature_witness :
    getMixinKey (List.replicate 32 'a' ++ List.replicate 32 'b') =
      some (specMixin (List.replicate 32 'a' ++ List.replicate 32 'b')) ∧
    signParams (fun q => q) (List.replicate 32 'a') (List.replicate 32 'b')
        [(['f', 'o', 'o'], ['b', 'a', '!', 'r'])] ['1', '2', '3'] =
      some (setKey wridKey
        (urlencode (sortByKey ((setKey wtsKey ['1', '2', '3']
            [(['f', 'o', 'o'], ['b', 'a', '!', 'r'])]).map stripKV)) ++
          specMixin (List.replicate 32 'a' ++ List.replicate 32 'b'))
        (sortByKey ((setKey wtsKey ['1', '2', '3']
          [(['f', 'o', 'o'], ['b', 'a', '!', 'r'])]).map stripKV))) :=
  C8_wbi_signature (fun q => q) (List.replicate 32 'a') (List.replicate 32 'b')
    [(['f', 'o', 'o'], ['b', 'a', '!', 'r'])] ['1', '2', '3'] (by decide)

/-! ## Lemmas about the username cleaner -/

theorem mem_lstripWS {c : Char} {l : List Char} (h : c ∈ lstripWS l) : c ∈ l :=
  (List.dropWhile_sublist isWS).subset h

theorem mem_rstripWS {c : Char} {l : List Char} (h : c ∈ rstripWS l) : c ∈ l := by
  unfold rstripWS at h
  rw [List.mem_reverse] at h
  have := (List.dropWhile_sublist isWS).subset h
  rwa [List.mem_reverse] at this

theorem mem_stripWS {c : Char} {l : List Char} (h : c ∈ stripWS l) : c ∈ l :=
  mem_lstripWS (mem_rstripWS h)

theorem splitWSAux_mem : ∀ (l w piece : List Char) (c : Char),
    piece ∈ splitWSAux l w → c ∈ piece → c ∈ l ∨ c ∈ w := by
  intro l
  induction l with
  | nil =>
    intro w piece c hp hc
    rw [splitWSAux] at hp
    split at hp
    · cases hp
    · rw [List.mem_singleton] at hp
      subst hp
      right
      rwa [List.mem_reverse] at hc
  | cons a rest ih =>
    intro w piece c hp hc
    rw [splitWSAux] at hp
    split at hp
    · split at hp
      · rcases ih [] piece c hp hc with h | h
        · exact Or.inl (List.mem_cons_of_mem _ h)
        · cases h
      · rcases List.mem_cons.mp hp with h | h
        · subst h
          right
          rwa [List.mem_reverse] at hc
        · rcases ih [] piece c h hc with h2 | h2
          · exact Or.inl (List.mem_cons_of_mem _ h2)
          · cases h2
    · rcases ih (a :: w) piece c hp hc with h | h
      · exact Or.inl (List.mem_cons_of_mem _ h)
      · rcases List.mem_cons.mp h with h2 | h2
        · subst h2
          exact Or.inl (List.mem_cons_self _ _)
        · exact Or.inr h2

theorem joinSpace_mem : ∀ (ps : List (List Char)) (c : Char),
    c ∈ joinSpace ps → (∃ p ∈ ps, c ∈ p) ∨ c = ' ' := by
  intro ps
  induction ps with
  | nil => intro c hc; cases hc
  | cons p rest ih =>
    intro c hc
    cases rest with
    | nil =>
      rw [joinSpace] at hc
      exact Or.inl ⟨p, by simp, hc⟩
    | cons q rest2 =>
      rw [joinSpace] at hc
      rcases List.mem_append.mp hc with h | h
      · exact Or.inl ⟨p, by simp, h⟩
      · rcases List.mem_cons.mp h with h2 | h2
        · exact Or.inr h2
        · rcases ih c h2 with ⟨p2, hp2, hcp2⟩ | h3
          · exact Or.inl ⟨p2, List.mem_cons_of_mem _ hp2, hcp2⟩
          · exact Or.inr h3

theorem normalizeWS_mem {c : Char} {x : List Char} (h : c ∈ normalizeWS x) :
    c ∈ x ∨ c = ' ' := by
  unfold normalizeWS at h
  have hstr : c ∈ stripWS (joinSpace (splitWS x)) := by
    split at h
    · exact (List.take_subset _ _) (mem_rstripWS h)
    · exact h
  have hj : c ∈ joinSpace (splitWS x) := mem_stripWS hstr
  rcases joinSpace_mem _ c hj with ⟨p, hp, hcp⟩ | hsp
  · rcases splitWSAux_mem x [] p c hp hcp with h2 | h2
    · exact Or.inl h2
    · cases h2
  · exact Or.inr hsp

theorem removeUrl_mem {c : Char} {x : List Char} (h : c ∈ removeUrl x) :
    c ∈ x ∨ c = ' ' := by
  unfold removeUrl at h
  split at h
  · split at h
    · split at h
      · split at h
        · exact Or.inl ((List.take_subset _ _) (mem_rstripWS h))
        · rcases List.mem_append.mp h with h2 | h2
          · exact Or.inl ((List.take_subset _ _) (mem_rstripWS h2))
          · rcases List.mem_cons.mp h2 with h3 | h3
            · exact Or.inr h3
            · exact Or.inl ((List.drop_subset _ _) (mem_lstripWS h3))
      · split at h
        · rcases List.mem_append.mp h with h2 | h2
          · exact Or.inl ((List.take_subset _ _) (mem_rstripWS h2))
          · exact Or.inl ((List.drop_subset _ _) h2)
        · exact Or.inl ((List.take_subset _ _) (mem_rstripWS h))
    · exact Or.inl h
  · exact Or.inl h

theorem cleanUsername_material (s : List Char) :
    cleanUsername s = defaultUsername ∨
      ∀ c ∈ cleanUsername s, c ∈ s ∨ c = ' ' := by
  unfold cleanUsername
  split
  · right
    intro c hc
    exact Or.inl hc
  · split
    · left; rfl
    · right
      intro c hc
      rcases normalizeWS_mem hc with h | h
      · rcases removeUrl_mem h with h2 | h2
        · exact Or.inl (List.mem_filter.mp h2).1
        · exact Or.inr h2
      · exact Or.inr h

/-! ## Claim C9 -/

/-- C9 (amended): every character of the display name surfaced by
`_trigger_user_enter` comes from the wire name (or is a space separator
introduced by whitespace normalisation / URL removal) — EXCEPT that when
the cleaned name is empty or whitespace-only and the input was nonempty,
the cleaner substitutes the fixed placeholder name `"用户"`, which is a
fabricated display name (see the counterexample).  The surfaced event's
uname is exactly the cleaner's output. -/
theorem C9_display_name_material (s : List Char) (uid : Nat)
    (history : List (Nat × List Char)) :
    (cleanUsername s = defaultUsername ∨
      ∀ c ∈ cleanUsername s, c ∈ s ∨ c = ' ') ∧
    (∀ ev, triggerUserEnter s uid history = some ev →
      ev = (uid, cleanUsername s)) := by
  refine ⟨cleanUsername_material s, ?_⟩
  intro ev hev
  unfold triggerUserEnter at hev
  split at hev
  · cases hev
  · exact (Option.some.inj hev).symm

/-- C9 witness: a clean two-letter name passes through with every
character drawn from the input, and the surfaced event carries it. -/
theorem C9_display_name_material_witness :
    (cleanUsername ['a', 'b'] = defaultUsername ∨
      ∀ c ∈ cleanUsername ['a', 'b'], c ∈ (['a', 'b'] : List Char) ∨ c = ' ') ∧
    (∀ ev, triggerUserEnter ['a', 'b'] 7 [] = some ev →
      ev = (7, cleanUsername ['a', 'b'])) :=
  C9_display_name_material ['a', 'b'] 7 []

/-- C9 counterexample: a whitespace-only wire name.  The claim says no
substitute placeholder name is invented when the decoded name is cleaned
away; the cleaner returns the fabricated `"用户"`, and the surfaced event
carries it. -/
theorem C9_counterexample :
    triggerUserEnter [' '] 42 [] = some (42, defaultUsername) ∧
    cleanUsername [' '] = defaultUsername ∧
    '用' ∈ defaultUsername ∧ '用' ∉ ([' '] : List Char) ∧ '用' ≠ ' ' := by
  decide

/-! ## Lemmas about the reconnection loop -/

theorem tail_getD (l : List Bool) (i : Nat) :
    l.tail.getD i false = l.getD (i + 1) false := by
  cases l <;> rfl

theorem headD_eq_getD (l : List Bool) : l.headD false = l.getD 0 false := by
  cases l <;> rfl

theorem rlGo_exhaust : ∀ (d attempts : Nat) (outcomes : List Bool) (maxA : Nat),
    maxA - attempts = d → attempts ≤ maxA →
    (∀ i, i < d → outcomes.getD i false = false) →
    rlGo outcomes maxA attempts =
      ⟨(List.range' (attempts + 1) d).map (fun k => min (2 ^ k) 60), d, maxA, true⟩ := by
  intro d
  induction d with
  | zero =>
    intro attempts outcomes maxA hd hle hf
    rw [rlGo, if_neg (by omega)]
    have : attempts = maxA := by omega
    subst this
    simp [List.range']
  | succ d ih =>
    intro attempts outcomes maxA hd hle hf
    rw [rlGo, if_pos (by omega)]
    have h0 : outcomes.headD false = false := by
      rw [headD_eq_getD]
      exact hf 0 (by omega)
    simp only [h0, Bool.false_eq_true, if_false]
    rw [ih (attempts + 1) outcomes.tail maxA (by omega) (by omega) ?_]
    · rw [List.range'_succ, List.map_cons]
    · intro i hi
      rw [tail_getD]
      exact hf (i + 1) (by omega)

theorem rlGo_success : ∀ (K attempts : Nat) (outcomes : List Bool) (maxA : Nat),
    attempts + K < maxA →
    (∀ i, i < K → outcomes.getD i false = false) →
    outcomes.getD K false = true →
    rlGo outcomes maxA attempts =
      ⟨(List.range' (attempts + 1) (K + 1)).map (fun k => min (2 ^ k) 60),
        K + 1, 0, false⟩ := by
  intro K
  induction K with
  | zero =>
    intro attempts outcomes maxA hlt hfail hsucc
    rw [rlGo, if_pos (by omega)]
    have h0 : outcomes.headD false = true := by rw [headD_eq_getD]; exact hsucc
    simp only [h0, if_true]
    simp [List.range']
  | succ K ih =>
    intro attempts outcomes maxA hlt hfail hsucc
    rw [rlGo, if_pos (by omega)]
    have h0 : outcomes.headD false = false := by
      rw [headD_eq_getD]
      exact hfail 0 (by omega)
    simp only [h0, Bool.false_eq_true, if_false]
    rw [ih (attempts + 1) outcomes.tail maxA (by omega) ?_ ?_]
    · simp [List.range'_succ]
    · intro i hi
      rw [tail_getD]
      exact hfail (i + 1) (by omega)
    · rw [tail_getD]
      exact hsucc

/-! ## Claim C6 -/

/-- C6: the reconnection controller.  Before the k-th `connect()` attempt
(1-based, matching `self.reconnect_attempts`) the loop sleeps exactly
`min(base_delay * 2 ** k, 60)` seconds, where the code's base delay is
the constant 1 second (`wait_time = min(2 ** attempts, 60)`),
If the first `max_attempts` outcomes are all failures the loop stops
after exactly `max_attempts` calls, makes no further `connect()` call,
and fires the terminal give-up notification through `on_disconnect`.  A
success at attempt `K + 1 <= max_attempts` (after K failures) resets the
attempt counter to 0, ends the sequence, and fires no give-up
notification. -/
theorem C6_reconnect_backoff (maxA : Nat) (outcomes : List Bool) :
    ((∀ i, i < maxA → outcomes.getD i false = false) →
      reconnectLoop true maxA outcomes =
        ⟨(List.range' 1 maxA).map (fun k => min (1 * 2 ^ k) 60), maxA, maxA, true⟩) ∧
    (∀ K, K < maxA → (∀ i, i < K → outcomes.getD i false = false) →
      outcomes.getD K false = true →
      reconnectLoop true maxA outcomes =
        ⟨(List.range' 1 (K + 1)).map (fun k => min (1 * 2 ^ k) 60), K + 1, 0, false⟩) := by
  simp only [one_mul]
  constructor
  · intro hf
    rw [reconnectLoop, if_pos rfl]
    exact rlGo_exhaust maxA 0 outcomes maxA (by omega) (by omega) hf
  · intro K hK hfail hsucc
    rw [reconnectLoop, if_pos rfl]
    exact rlGo_success K 0 outcomes maxA (by omega) hfail hsucc

/-- C6 witness: with the default `max_attempts = 5`, five failures give
up after exactly five calls; failures then a success on attempt 3 stop
with the counter reset. -/
theorem C6_reconnect_backoff_witness :
    reconnectLoop true 5 [false, false, false, false, false] =
      ⟨(List.range' 1 5).map (fun k => min (1 * 2 ^ k) 60), 5, 5, true⟩ ∧
    reconnectLoop true 5 [false, false, true] =
      ⟨(List.range' 1 3).map (fun k => min (1 * 2 ^ k) 60), 3, 0, false⟩ :=
  ⟨(C6_reconnect_backoff 5 [false, false, false, false, false]).1 (by decide),
   (C6_reconnect_backoff 5 [false, false, true]).2 2 (by decide) (by decide) (by decide)⟩

/-! ## Claim C7 -/

/-- C7: event dispatch over three enabled extensions A, B, C registered
in that order.  The trace shows dispatch visits them in registration
order, each receiving the payload left by its predecessor (so C observes
B's mutation when B returns one); when B raises, the payload it passes on
is exactly the one produced by A; when B returns a payload, that is what
C receives.  The pipeline always reaches C. -/
theorem C7_event_dispatch {α : Type} (fA fB fC : α → Except Unit (Option α)) (d : α) :
    processEvent [(true, fA), (true, fB), (true, fC)] d =
      (stepPlugin fC (stepPlugin fB (stepPlugin fA d)),
        [d, stepPlugin fA d, stepPlugin fB (stepPlugin fA d)]) ∧
    (∀ e, fB (stepPlugin fA d) = Except.error e →
      stepPlugin fB (stepPlugin fA d) = stepPlugin fA d) ∧
    (∀ p, fB (stepPlugin fA d) = Except.ok (some p) →
      stepPlugin fB (stepPlugin fA d) = p) := by
  refine ⟨rfl, ?_, ?_⟩
  · intro e he
    rw [stepPlugin, he]
  · intro p hp
    rw [stepPlugin, hp]

/-- C7 witness: A increments, B raises, C multiplies by 10 — C receives
A's payload 6 and the pipeline completes with 60. -/
theorem C7_event_dispatch_witness :
    processEvent [(true, fun n => Except.ok (some (n + 1))),
        (true, fun _ => Except.error ()),
        (true, fun n => Except.ok (some (n * 10)))] (5 : Nat) =
      (stepPlugin (fun n => Except.ok (some (n * 10)))
          (stepPlugin (fun _ => Except.error ())
            (stepPlugin (fun n => Except.ok (some (n + 1))) 5)),
        [5, stepPlugin (fun n => Except.ok (some (n + 1))) 5,
          stepPlugin (fun _ => Except.error ())
            (stepPlugin (fun n => Except.ok (some (n + 1))) 5)]) ∧
    stepPlugin (fun _ => Except.error ())
        (stepPlugin (fun n => Except.ok (some (n + 1))) (5 : Nat)) =
      stepPlugin (fun n => Except.ok (some (n + 1))) 5 :=
  ⟨(C7_event_dispatch (fun n => Except.ok (some (n + 1))) (fun _ => Except.error ())
      (fun n => Except.ok (some (n * 10))) 5).1,
   (C7_event_dispatch (fun n => Except.ok (some (n + 1))) (fun _ => Except.error ())
      (fun n => Except.ok (some (n * 10))) 5).2.1 () rfl⟩

end BiliLive
